import Mathlib

/-!
Verification development for the ssecs archetype ECS core.

This file gives a shallow embedding, in Lean, of the storage and migration
core of the repository: the local generational slot map (src/slotmap.rs), the
FieldId/Signature machinery, columnar storage and archetypes
(src/src/world/archetype.rs), the Core mutator (src/src/world/core.rs), the
command queue / flush layer and the flush gate (src/src/world/mod.rs,
src/src/entity.rs).

Modelling conventions:
* machine integers are Nat; u32::MAX and usize::MAX are explicit constants,
  and wrapping or panicking arithmetic is made explicit at each use site;
* Rust operations that can panic are embedded as Option-returning functions,
  where a none result marks exactly the inputs on which the Rust code panics
  (slice length mismatches, index out of bounds, integer overflow or division
  by zero, unwrap of a missing entry);
* HashMap values are embedded as association lists with distinct keys; the
  claims under study only ever use lookup and insert, never iteration order;
* the archetype slot map only grows and Core::new asserts that the first
  inserted id is the distinguished empty-archetype id, so ArchetypeId is
  embedded as a position into a list of archetypes, with the empty archetype
  at position 0 and the ComponentInfo archetype at position 1;
* the drop thunk of a component is external code; a Column records the chunks
  passed to the thunk in a `drops` trace field instead of calling it;
* debug_assert! statements are compiled out in release builds and are not
  modelled.
-/

namespace Ssecs

/-- u32::MAX. -/
def U32MAX : Nat := 2 ^ 32 - 1

/-- usize::MAX (the flush-in-progress gate value and the uninitialized row sentinel). -/
def USIZEMAX : Nat := 2 ^ 64 - 1

/-- Key (src/slotmap.rs lines 6-20): a 32-bit slot index plus a 32-bit generation.
Fields are u32, so they are kept below 2^32 by every operation of the code. -/
structure Key where
  index : Nat
  generation : Nat
  deriving DecidableEq, Repr

/-- Key::raw: (u64::from(generation) << 32) | u64::from(index).  For index < 2^32 the
shift-or is exactly generation * 2^32 + index. -/
def Key.raw (k : Key) : Nat := k.generation * 2 ^ 32 + k.index

/-- Key::from_raw: index = value & 0xffff_ffff, generation = (value >> 32) as u32. -/
def Key.fromRaw (v : Nat) : Key := ⟨v % 2 ^ 32, v / 2 ^ 32 % 2 ^ 32⟩

/-- Entity::null (src/entity.rs lines 24-27): Key::default, index 0 at the never-granted
generation 0. -/
def Key.null : Key := ⟨0, 0⟩

/-- FieldId is a u64 (src/src/world/archetype.rs line 51); embedded as Nat. -/
abbrev FieldId := Nat

/-- impl From a Entity for FieldId (src/src/world/archetype.rs lines 53-57):
Self(entity.raw() & u32::MAX as u64), keeping only the low 32 bits. -/
def fieldIdOfEntity (k : Key) : FieldId := k.raw % 2 ^ 32

/-- One slot of the local SlotMap (src/slotmap.rs lines 22-32); generation 0 is the
never-used null generation. -/
structure Slot (T : Type) where
  generation : Nat
  data : Option T
  deriving DecidableEq, Repr

/-- The local generational slot map (src/slotmap.rs lines 34-39). -/
structure SlotMap (T : Type) where
  slots : List (Slot T)
  available : List Nat
  deriving DecidableEq, Repr

/-- SlotMap::insert (src/slotmap.rs lines 73-92).  Vec::pop takes the last element of
the available list.  Returns none exactly where the Rust code panics: on the
Reached-slotmap-limit check (free list empty and slots.len() == u32::MAX) and on the
out-of-bounds slot index (a popped free index beyond the slot vector). -/
def SlotMap.insert {T : Type} (m : SlotMap T) (data : T) : Option (SlotMap T × Key) :=
  match m.available.getLast? with
  | some idx =>
      match m.slots[idx]? with
      | none => none
      | some s =>
          let g := if s.generation ≠ U32MAX then s.generation + 1 else 1
          some ({ slots := m.slots.set idx ⟨g, some data⟩, available := m.available.dropLast },
                ⟨idx, g⟩)
  | none =>
      if m.slots.length = U32MAX then none
      else
        some ({ slots := m.slots ++ [⟨1, some data⟩], available := m.available },
              ⟨m.slots.length, 1⟩)

/-- SlotMap::remove (src/slotmap.rs lines 94-100): take the data out of the slot when the
generation matches; the generation itself is left unchanged. -/
def SlotMap.remove {T : Type} (m : SlotMap T) (k : Key) : Option T × SlotMap T :=
  match m.slots[k.index]? with
  | some s =>
      if s.generation = k.generation then
        match s.data with
        | some v => (some v, { m with slots := m.slots.set k.index ⟨s.generation, none⟩ })
        | none => (none, m)
      else (none, m)
  | none => (none, m)

/-- SlotMap::get (src/slotmap.rs lines 106-112): lookup checked against the generation. -/
def SlotMap.get {T : Type} (m : SlotMap T) (k : Key) : Option T :=
  match m.slots[k.index]? with
  | some s => if s.generation = k.generation then s.data else none
  | none => none

/-- SlotMap::get_ignore_generation (src/slotmap.rs lines 114-116). -/
def SlotMap.getIgnoreGeneration {T : Type} (m : SlotMap T) (k : Key) : Option T :=
  match m.slots[k.index]? with
  | some s => s.data
  | none => none

/-- The assignment entity_index[key] = v, i.e. IndexMut via get_mut().unwrap()
(src/slotmap.rs lines 52-60): none when the key is stale or absent (the unwrap panic). -/
def SlotMap.setVal {T : Type} (m : SlotMap T) (k : Key) (v : T) : Option (SlotMap T) :=
  match m.slots[k.index]? with
  | some s =>
      if s.generation = k.generation ∧ s.data.isSome then
        some { m with slots := m.slots.set k.index ⟨s.generation, some v⟩ }
      else none
  | none => none

/-- The in-place update entity_index[key].field = ..., again IndexMut followed by a field
assignment; none on the unwrap panic. -/
def SlotMap.modifyVal {T : Type} (m : SlotMap T) (k : Key) (f : T → T) : Option (SlotMap T) :=
  match m.slots[k.index]? with
  | some s =>
      if s.generation = k.generation then
        match s.data with
        | some v => some { m with slots := m.slots.set k.index ⟨s.generation, some (f v)⟩ }
        | none => none
      else none
  | none => none

/-! Association-list embedding of HashMap (lookup, insert-or-replace, entry().or_default()
followed by a field update).  The code never iterates a HashMap on the paths under
study, so lookup or insert semantics fully determine behaviour. -/

/-- HashMap::get. -/
def alGet {κ β : Type} [DecidableEq κ] : List (κ × β) → κ → Option β
  | [], _ => none
  | (k, v) :: rest, q => if k = q then some v else alGet rest q

/-- HashMap::insert (replaces an existing binding). -/
def alInsert {κ β : Type} [DecidableEq κ] : List (κ × β) → κ → β → List (κ × β)
  | [], q, v => [(q, v)]
  | (k, w) :: rest, q, v => if k = q then (k, v) :: rest else (k, w) :: alInsert rest q v

/-- HashMap::entry(k).or_default() followed by an update of the entry in place. -/
def alUpdate {κ β : Type} [DecidableEq κ] (d : β) (f : β → β) :
    List (κ × β) → κ → List (κ × β)
  | [], q => [(q, f d)]
  | (k, w) :: rest, q =>
      if k = q then (k, f w) :: rest else (k, w) :: alUpdate d f rest q

/-! The Rust standard slice binary search (the branchless implementation in
core::slice: keep a base and a window size, halve the window each round, then compare
the final candidate), used by Signature for contains, with and without. -/

/-- The while-size-greater-one loop of slice::binary_search_by, specialised to an
ascending comparison against the target t: base moves to mid unless the probed element
is greater than t.  The loop halves size each round, so running it with fuel equal to
the initial size is exact: fuel runs out only when size has already reached zero, where
the loop guard is false anyway. -/
def bsLoopF (xs : List Nat) (t : Nat) : Nat → Nat → Nat → Nat
  | 0, base, _ => base
  | fuel + 1, base, size =>
      if 1 < size then
        let half := size / 2
        let mid := base + half
        let base2 := if t < xs.getD mid 0 then base else mid
        bsLoopF xs t fuel base2 (size - half)
      else base

/-- The binary-search loop entered with fuel equal to the window size. -/
def bsLoop (xs : List Nat) (t : Nat) (base size : Nat) : Nat :=
  bsLoopF xs t size base size

/-- The final comparison of slice::binary_search_by once the window has shrunk to the
single candidate b: Ok on a match, else Err at the insertion point (after b when the
candidate is below the target, at b when it is above). -/
def bsFinish (xs : List Nat) (t b : Nat) : Except Nat Nat :=
  if xs.getD b 0 = t then .ok b
  else if xs.getD b 0 < t then .error (b + 1)
  else .error b

/-- slice::binary_search against target t: ok at a position holding t, or error at the
insertion point. -/
def binarySearch (xs : List Nat) (t : Nat) : Except Nat Nat :=
  if xs.length = 0 then .error 0
  else bsFinish xs t (bsLoop xs t 0 xs.length)

/-- Rust Vec::dedup removes consecutive duplicates only. -/
def dedupConsec : List Nat → List Nat
  | [] => []
  | [a] => [a]
  | a :: b :: rest => if a = b then dedupConsec (b :: rest) else a :: dedupConsec (b :: rest)

/-- Signature::new (src/src/world/archetype.rs lines 70-75): sort then dedup.  Rust sort
is a stable merge sort; List.mergeSort is the embedding. -/
def sigNew (fields : List Nat) : List Nat :=
  dedupConsec (fields.mergeSort (fun a b => decide (a ≤ b)))

/-- Signature::contains (lines 77-79): binary_search(..).is_ok(). -/
def sigContains (s : List Nat) (f : Nat) : Bool :=
  match binarySearch s f with
  | .ok _ => true
  | .error _ => false

/-- Signature::with (lines 81-86): insert at the Err insertion point, keep unchanged on Ok. -/
def sigWith (s : List Nat) (f : Nat) : List Nat :=
  match binarySearch s f with
  | .ok _ => s
  | .error n => s.insertIdx n f

/-- Signature::without (lines 88-93): Vec::remove at the Ok position, keep unchanged on Err. -/
def sigWithout (s : List Nat) (f : Nat) : List Nat :=
  match binarySearch s f with
  | .ok n => s.eraseIdx n
  | .error _ => s

/-- The two skip-ahead while loops at the start of Signature::each_shared
(lines 104-115): advance from n while the element at n is less than v.  n increases
by one per round and the guard needs n below the length, so fuel s.length - n is
exact: at zero fuel n is already at or past the length and the guard is false. -/
def skipBelowF (s : List Nat) (v : Nat) : Nat → Nat → Nat
  | 0, n => n
  | fuel + 1, n => if n < s.length ∧ s.getD n 0 < v then skipBelowF s v fuel (n + 1) else n

/-- The skip loop entered with its exact fuel. -/
def skipBelow (s : List Nat) (v : Nat) (n : Nat) : Nat :=
  skipBelowF s v (s.length - n) n

/-- The main merge-join loop of Signature::each_shared (lines 116-125): the index pairs
passed to func, in call order.  One of the two cursors advances each round and the
guard needs both below their lengths, so the sum of the remaining distances is exact
fuel: at zero both cursors are exhausted and the guard is false. -/
def sharedLoopF (s t : List Nat) : Nat → Nat → Nat → List (Nat × Nat)
  | 0, _, _ => []
  | fuel + 1, n, m =>
      if n < s.length ∧ m < t.length then
        let hit := if s.getD n 0 = t.getD m 0 then [(n, m)] else []
        if s.getD n 0 < t.getD m 0 then hit ++ sharedLoopF s t fuel (n + 1) m
        else hit ++ sharedLoopF s t fuel n (m + 1)
      else []

/-- The merge-join loop entered with its exact fuel. -/
def sharedLoop (s t : List Nat) (n m : Nat) : List (Nat × Nat) :=
  sharedLoopF s t ((s.length - n) + (t.length - m)) n m

/-- Signature::each_shared (lines 99-126): empty-input early outs, the two skip loops
with their early returns, then the merge join. -/
def sharedPairs (s t : List Nat) : List (Nat × Nat) :=
  if s.isEmpty ∨ t.isEmpty then []
  else
    let n := skipBelow s (t.getD 0 0) 0
    if n = s.length then []
    else
      let m := skipBelow t (s.getD n 0) 0
      if m = t.length then []
      else sharedLoop s t n m

/-- ComponentInfo (src/component.rs): size, alignment and the FieldId of the component.
The drop thunk is external code and is represented by the trace a Column keeps. -/
structure ComponentInfoM where
  size : Nat
  align : Nat
  id : FieldId
  deriving DecidableEq, Repr

/-- Column (src/src/world/archetype.rs lines 129-133): an aligned byte buffer (bytes as
Nat) plus its ComponentInfo.  The drops field records, in order, each chunk handed to
the type-erased drop thunk. -/
structure Column where
  buffer : List Nat
  info : ComponentInfoM
  drops : List (List Nat)
  deriving DecidableEq, Repr

/-- Column::new (lines 136-138). -/
def Column.new (info : ComponentInfoM) : Column := ⟨[], info, []⟩

/-- Column::no_chunks (lines 147-153): 0 for a zero-sized component, else len / size. -/
def Column.noChunks (c : Column) : Nat :=
  if c.info.size = 0 then 0 else c.buffer.length / c.info.size

/-- Column::get_chunk (lines 155-157): buffer[row*size..][..size]; none on the slice
panics when the range is out of bounds. -/
def Column.getChunk (c : Column) (row : Nat) : Option (List Nat) :=
  if row * c.info.size + c.info.size ≤ c.buffer.length then
    some ((c.buffer.drop (row * c.info.size)).take c.info.size)
  else none

/-- Column::call_drop (lines 193-199): pass buffer[row*size..][..size] to the drop
thunk; the chunk is recorded in the trace.  None on the slice panic. -/
def Column.callDrop (c : Column) (row : Nat) : Option Column :=
  match c.getChunk row with
  | some bytes => some { c with drops := c.drops ++ [bytes] }
  | none => none

/-- Column::swap_with_last (lines 140-145).  The code splits the buffer at
(row+1)*size and swaps left[row*size..] with the whole right part;
slice::swap_with_slice panics unless both slices have the same length, so any row
further than two chunks from the end is a panic. -/
def Column.swapWithLast (c : Column) (row : Nat) : Option Column :=
  if row + 1 < c.noChunks then
    let cut := (row + 1) * c.info.size
    let left := c.buffer.take cut
    let right := c.buffer.drop cut
    let lowpart := left.take (row * c.info.size)
    let chunk := left.drop (row * c.info.size)
    if chunk.length = right.length then
      some { c with buffer := lowpart ++ right ++ chunk }
    else none
  else some c

/-- Column::write_into (lines 159-171).  Zero-sized: early return.  Existing row: call
the drop thunk then buffer[row*size..].copy_from_slice(bytes), which panics unless the
destination slice (which runs to the end of the buffer) has exactly the length of
bytes.  Fresh row: extend_from_slice appends. -/
def Column.writeInto (c : Column) (row : Nat) (bytes : List Nat) : Option Column :=
  if c.info.size = 0 then some c
  else if row < c.noChunks then
    match c.callDrop row with
    | none => none
    | some c1 =>
        if (c1.buffer.drop (row * c1.info.size)).length = bytes.length then
          some { c1 with buffer := c1.buffer.take (row * c1.info.size) ++ bytes }
        else none
  else some { c with buffer := c.buffer ++ bytes }

/-- Column::move_into (lines 173-190).  Zero-sized: no-op.  Otherwise swap the row with
the last chunk, resize other by one zeroed chunk, swap the two one-chunk tails, then
truncate self by one chunk.  None propagates the swap_with_last panic and the
usize underflow of len - size on an empty buffer. -/
def Column.moveInto (self other : Column) (row : Nat) : Option (Column × Column) :=
  if self.info.size = 0 then some (self, other)
  else
    match self.swapWithLast row with
    | none => none
    | some s1 =>
        let o1 : Column := { other with buffer := other.buffer ++ List.replicate other.info.size 0 }
        if s1.buffer.length < s1.info.size then none
        else
          let n := s1.buffer.length - s1.info.size
          let m := o1.buffer.length - o1.info.size
          let sSwapped := s1.buffer.take n ++ o1.buffer.drop m
          let oSwapped := o1.buffer.take m ++ s1.buffer.drop n
          some ({ s1 with buffer := sSwapped.take n }, { o1 with buffer := oSwapped })

/-- Column::shrink_to_fit (lines 201-207): drop every chunk from target up, then
truncate to target chunks.  Total: the loop only touches in-range chunks. -/
def Column.shrinkToFit (c : Column) (target : Nat) : Column :=
  { c with
    buffer := c.buffer.take (target * c.info.size),
    drops := c.drops ++ (List.range' target (c.noChunks - target)).map
      (fun n => (c.buffer.drop (n * c.info.size)).take c.info.size) }

/-- Column::swap_drop (lines 209-215): swap with last, then n = buffer.len()/size - 1
(division by zero for a zero-sized component, usize underflow on an empty buffer:
both panics), drop the now-last chunk, truncate to n chunks. -/
def Column.swapDrop (c : Column) (row : Nat) : Option Column :=
  match c.swapWithLast row with
  | none => none
  | some c1 =>
      if c1.info.size = 0 then none
      else if c1.buffer.length / c1.info.size = 0 then none
      else
        let n := c1.buffer.length / c1.info.size - 1
        match c1.callDrop n with
        | none => none
        | some c2 => some (c2.shrinkToFit n)

/-- ArchetypeEdge (src/src/world/archetype.rs lines 43-47). -/
structure EdgeM where
  add : Option Nat
  remove : Option Nat
  deriving DecidableEq, Repr

/-- Archetype (src/src/world/archetype.rs lines 26-32): signature, ordered entity list,
one column per signature field, and the edge map. -/
structure ArchetypeM where
  signature : List Nat
  entities : List Key
  columns : List Column
  edges : List (Nat × EdgeM)
  deriving DecidableEq, Repr

/-- Vec::swap_remove(i): replace position i with the last element and pop; returns the
removed element.  None on the out-of-range panic. -/
def swapRemove {α : Type} (l : List α) (i : Nat) : Option (α × List α) :=
  match l[i]? with
  | none => none
  | some x =>
      match l.getLast? with
      | none => none
      | some last => some (x, (l.set i last).dropLast)

/-- Archetype::drop (src/src/world/archetype.rs lines 35-41): swap-remove the entity at
row, then swap_drop(row) on every column in order. -/
def ArchetypeM.dropRow (a : ArchetypeM) (row : Nat) : Option ArchetypeM := do
  let (_, ents) ← swapRemove a.entities row
  let cols ← a.columns.mapM (fun c => c.swapDrop row)
  pure { a with entities := ents, columns := cols }

/-- EntityLocation (src/src/world/core.rs lines 17-27). -/
structure EntityLoc where
  archetype : Nat
  row : Nat
  deriving DecidableEq, Repr

/-- EntityLocation::uninitialized: the empty archetype with row usize::MAX. -/
def EntityLoc.uninit : EntityLoc := ⟨0, USIZEMAX⟩

/-- Core (src/src/world/core.rs lines 32-38).  field_index maps a FieldId to the map
from ArchetypeId to column position; signature_index maps a signature to its
ArchetypeId.  The Mutex and RwLock wrappers arbitrate aliasing, not values, and are
dropped in the embedding. -/
structure CoreM where
  entityIndex : SlotMap EntityLoc
  fieldIndex : List (Nat × List (Nat × Nat))
  signatureIndex : List (List Nat × Nat)
  archetypes : List ArchetypeM
  deriving DecidableEq, Repr

/-- Core::new (src/src/world/core.rs lines 41-92), parameterized by the number of
COMPONENT_ENTRIES and by the FieldId and ComponentInfo of the ComponentInfo component.
Each pre-spawned component entity n receives key (n, 1) and location (empty, n). -/
def coreNew (nEntries : Nat) (ciField : Nat) (ciInfo : ComponentInfoM) : CoreM :=
  { entityIndex := ⟨(List.range nEntries).map (fun _ => ⟨1, some ⟨0, 0⟩⟩), []⟩,
    fieldIndex := [(ciField, [(1, 0)])],
    signatureIndex := [([], 0), (sigNew [ciField], 1)],
    archetypes :=
      [ { signature := [], entities := (List.range nEntries).map (fun n => ⟨n, 1⟩),
          columns := [], edges := [(ciField, ⟨some 1, none⟩)] },
        { signature := sigNew [ciField], entities := [], columns := [Column.new ciInfo],
          edges := [(ciField, ⟨none, some 0⟩)] } ] }

/-- Core::archetype_has (core.rs lines 234-238). -/
def archetypeHas (st : CoreM) (f : Nat) (arch : Nat) : Bool :=
  match alGet st.fieldIndex f with
  | some fl => (alGet fl arch).isSome
  | none => false

/-- Core::entity_location and entity_location_locking (core.rs lines 188-196): they
differ only in how the Mutex is taken. -/
def entityLocation (st : CoreM) (e : Key) : Option EntityLoc :=
  st.entityIndex.get e

/-- The per-pair body of the each_shared callback in Core::move_entity: fetch the two
columns by position and move the chunk at row across, writing both columns back. -/
def moveSharedColumns (row : Nat) :
    List Column → List Column → List (Nat × Nat) → Option (List Column × List Column)
  | oldCols, newCols, [] => some (oldCols, newCols)
  | oldCols, newCols, (n, m) :: rest => do
      let oc ← oldCols[n]?
      let nc ← newCols[m]?
      let (oc2, nc2) ← oc.moveInto nc row
      moveSharedColumns row (oldCols.set n oc2) (newCols.set m nc2) rest

/-- Core::move_entity (core.rs lines 95-136).  Same-archetype calls return unchanged.
Otherwise: disjointly borrow the two archetypes, swap-remove the entity from the old
entity list and push it onto the new one, move every shared column chunk, point the
moved entity at its new location, fix up the displaced entity when the swap-removed
row was not the last, and shrink every old column to the new entity count. -/
def moveEntity (st : CoreM) (old : EntityLoc) (dest : Nat) : Option (CoreM × EntityLoc) :=
  if old.archetype = dest then some (st, old)
  else do
    let oldA ← st.archetypes[old.archetype]?
    let newA ← st.archetypes[dest]?
    let (entity, oldEnts) ← swapRemove oldA.entities old.row
    let newEnts := newA.entities ++ [entity]
    let (oldCols, newCols) ←
      moveSharedColumns old.row oldA.columns newA.columns (sharedPairs oldA.signature newA.signature)
    let upd : EntityLoc := ⟨dest, newEnts.length - 1⟩
    let idx1 ← st.entityIndex.setVal entity upd
    let idx2 ←
      if old.row < oldEnts.length then do
        let disp ← oldEnts[old.row]?
        idx1.modifyVal disp (fun l => ⟨l.archetype, old.row⟩)
      else some idx1
    let oldCols2 := oldCols.map (fun c => c.shrinkToFit oldEnts.length)
    let arch2 :=
      (st.archetypes.set old.archetype { oldA with entities := oldEnts, columns := oldCols2 }).set
        dest { newA with entities := newEnts, columns := newCols }
    some ({ st with entityIndex := idx2, archetypes := arch2 }, upd)

/-- An archetype with its edge map replaced and all other fields kept. -/
def withEdges (a : ArchetypeM) (ed : List (Nat × EdgeM)) : ArchetypeM :=
  { a with edges := ed }

/-- One iteration of the Core::connect_edges loop (core.rs lines 140-151) for field f:
look up the signature without f; when realized as other, set the remove edge of this
archetype for f to other (keeping its add half) and the add edge of other for f to
this archetype (keeping its remove half), creating default entries as needed. -/
def connectStep (sig : List Nat) (id : Nat) (st2 : CoreM) (f : Nat) : Option CoreM :=
  match alGet st2.signatureIndex (sigWithout sig f) with
  | none => some st2
  | some other => do
      let a1 ← st2.archetypes[id]?
      let a1b := withEdges a1 (alUpdate ⟨none, none⟩ (fun e => ⟨e.add, some other⟩) a1.edges f)
      let st3 := { st2 with archetypes := st2.archetypes.set id a1b }
      let a2 ← st3.archetypes[other]?
      let a2b := withEdges a2 (alUpdate ⟨none, none⟩ (fun e => ⟨some id, e.remove⟩) a2.edges f)
      some { st3 with archetypes := st3.archetypes.set other a2b }

/-- Core::connect_edges (core.rs lines 138-152): the loop body above over every field
of the signature. -/
def connectEdges (st : CoreM) (sig : List Nat) (id : Nat) : Option CoreM :=
  sig.foldlM (connectStep sig id) st

/-- The state of Core::create_archetype just before connect_edges, for a signature not
yet realized: the new archetype (fresh id = current archetype count) appended with its
freshly built columns, the signature registered, and the field index populated with
the column position of every field (core.rs lines 158-179). -/
def createArchetypeFresh (st : CoreM) (sig : List Nat) (cols : List Column) : CoreM :=
  { st with
    archetypes := st.archetypes ++
      [{ signature := sig, entities := [], columns := cols, edges := [] }],
    signatureIndex := alInsert st.signatureIndex sig st.archetypes.length,
    fieldIndex := sig.enum.foldl
      (fun fi p => alUpdate [] (fun m => alInsert m st.archetypes.length p.1) fi p.2)
      st.fieldIndex }

/-- Core::create_archetype (core.rs lines 154-186).  The ComponentInfo of each field is
read back, through Core::component_info, from the raw bytes of the ComponentInfo
column via a pointer read; that byte-level reinterpretation is memory layout, so the
mapping from FieldId to ComponentInfo is abstracted into the infos parameter (none
embeds the unwrap panic for an unregistered field). -/
def createArchetype (infos : Nat → Option ComponentInfoM) (st : CoreM) (sig : List Nat) :
    Option (CoreM × Nat) :=
  match alGet st.signatureIndex sig with
  | some id => some (st, id)
  | none => do
      let cols ← sig.mapM (fun f => (infos f).map Column.new)
      let st2 ← connectEdges (createArchetypeFresh st sig cols) sig st.archetypes.length
      some (st2, st.archetypes.length)

/-- Core::create_uninitialized_entity (core.rs lines 278-281). -/
def createUninitEntity (st : CoreM) : Option (CoreM × Key) :=
  (st.entityIndex.insert EntityLoc.uninit).map
    (fun p => ({ st with entityIndex := p.1 }, p.2))

/-- Core::initialize_entity_location (core.rs lines 283-293): when the location is the
uninitialized sentinel, place the entity at the end of the empty archetype. -/
def initEntityLocation (st : CoreM) (e : Key) : Option (CoreM × EntityLoc) := do
  let loc ← st.entityIndex.get e
  if loc = EntityLoc.uninit then do
    let emptyA ← st.archetypes[0]?
    let loc2 : EntityLoc := ⟨loc.archetype, emptyA.entities.length⟩
    let idx ← st.entityIndex.setVal e loc2
    some ({ st with
            archetypes := st.archetypes.set 0 { emptyA with entities := emptyA.entities ++ [e] },
            entityIndex := idx }, loc2)
  else some (st, loc)

/-- Core::despawn (core.rs lines 295-299): remove the location from the index and
swap-drop the row out of its archetype.  A stale or unknown entity is a silent no-op. -/
def despawnE (st : CoreM) (e : Key) : Option CoreM :=
  match st.entityIndex.remove e with
  | (none, _) => some st
  | (some loc, idx) => do
      let a ← st.archetypes[loc.archetype]?
      let a2 ← a.dropRow loc.row
      some { st with entityIndex := idx, archetypes := st.archetypes.set loc.archetype a2 }

/-- Core::insert_bytes (core.rs lines 301-343): assert the payload length, resolve the
current location, pick the destination archetype (already-present field, add edge, or
create), move the entity, then write the bytes into the destination column resolved
through field_index. -/
def insertBytes (infos : Nat → Option ComponentInfoM) (st : CoreM)
    (info : ComponentInfoM) (bytes : List Nat) (e : Key) : Option (CoreM × EntityLoc) := do
  if info.size = bytes.length then
    let current ← st.entityIndex.get e
    let curA ← st.archetypes[current.archetype]?
    let entity ← curA.entities[current.row]?
    let (st1, dest) ←
      if sigContains curA.signature info.id then some (st, current.archetype)
      else
        match (alGet curA.edges info.id).bind (fun ed => ed.add) with
        | some edge => some (st, edge)
        | none => createArchetype infos st (sigWith curA.signature info.id)
    let (st2, _) ← moveEntity st1 current dest
    let updated ← st2.entityIndex.get entity
    let fl ← alGet st2.fieldIndex info.id
    let colIdx ← alGet fl updated.archetype
    let destA ← st2.archetypes[dest]?
    let col ← destA.columns[colIdx]?
    let col2 ← col.writeInto updated.row bytes
    let destA2 := { destA with columns := destA.columns.set colIdx col2 }
    some ({ st2 with archetypes := st2.archetypes.set dest destA2 }, updated)
  else none

/-- Core::remove_field (core.rs lines 345-364): resolve the current location, pick the
destination (remove edge or create the signature without the field), and move; the
removed chunk is dropped by the shrink inside move_entity. -/
def removeField (infos : Nat → Option ComponentInfoM) (st : CoreM)
    (f : Nat) (e : Key) : Option (CoreM × EntityLoc) := do
  let current ← st.entityIndex.get e
  let curA ← st.archetypes[current.archetype]?
  let (st1, dest) ←
    match (alGet curA.edges f).bind (fun ed => ed.remove) with
    | some edge => some (st, edge)
    | none => createArchetype infos st (sigWithout curA.signature f)
  moveEntity st1 current dest

/-! The flush gate (src/src/world/mod.rs lines 56-100): a single counter, 0 idle,
usize::MAX flush in progress, anything between a reader count.  Each transition is a
CAS that panics on failure. -/

/-- Crust::begin_read (mod.rs lines 57-63). -/
def beginRead (g : Nat) : Option Nat :=
  if g < USIZEMAX then some (g + 1) else none

/-- Crust::end_read (mod.rs lines 65-71). -/
def endRead (g : Nat) : Option Nat :=
  if 0 < g ∧ g < USIZEMAX then some (g - 1) else none

/-- Crust::begin_flush (mod.rs lines 73-79): CAS from 0 to usize::MAX, panic otherwise. -/
def beginFlush (g : Nat) : Option Nat :=
  if g = 0 then some USIZEMAX else none

/-- Crust::end_flush (mod.rs lines 81-87). -/
def endFlush (g : Nat) : Option Nat :=
  if g = USIZEMAX then some 0 else none

/-- The gate transitions performed by a View::get call that returns a live guard
(entity.rs lines 78-95): one begin on entry, a second begin inside
ColumnReadGuard::new (lines 125-133), and one end on the way out, leaving exactly one
increment held by the guard until its Drop runs end once more.  The begin_access and
end_access names used in entity.rs are the begin_read and end_read of world/mod.rs. -/
def getGuardGate (g : Nat) : Option Nat := do
  let g1 ← beginRead g
  let g2 ← beginRead g1
  endRead g2

/-- ColumnReadGuard::drop (entity.rs lines 142-147). -/
def guardDropGate (g : Nat) : Option Nat := endRead g

/-- Command (src/src/world/command.rs): the queued structural mutations. -/
inductive CommandM where
  | noop
  | spawnC (e : Key)
  | despawnC (e : Key)
  | insertC (info : ComponentInfoM) (bytes : List Nat) (e : Key)
  | removeC (f : Nat) (e : Key)
  deriving DecidableEq, Repr

/-- Command::apply (command.rs): dispatch onto the Core operations. -/
def applyCommand (infos : Nat → Option ComponentInfoM) (st : CoreM) :
    CommandM → Option CoreM
  | .noop => some st
  | .spawnC e => (initEntityLocation st e).map Prod.fst
  | .despawnC e => despawnE st e
  | .insertC info bytes e => (insertBytes infos st info bytes e).map Prod.fst
  | .removeC f e => (removeField infos st f e).map Prod.fst

/-- World / Crust / Mantle collapsed onto one producer thread: the Core, that thread's
command queue, and the flush gate counter (src/src/world/mod.rs lines 25-54). -/
structure WorldM where
  core : CoreM
  queue : List CommandM
  flushGuard : Nat
  deriving DecidableEq, Repr

/-- View::insert (entity.rs lines 55-60): serialize the component (its ComponentInfo
plus its bytes) and enqueue an Insert command; performed under the read gate, whose
begin and end cancel. -/
def viewInsert (w : WorldM) (info : ComponentInfoM) (bytes : List Nat) (e : Key) : WorldM :=
  { w with queue := w.queue ++ [.insertC info bytes e] }

/-- View::remove (entity.rs lines 62-67). -/
def viewRemove (w : WorldM) (f : Nat) (e : Key) : WorldM :=
  { w with queue := w.queue ++ [.removeC f e] }

/-- View::despawn (entity.rs lines 115-117). -/
def viewDespawn (w : WorldM) (e : Key) : WorldM :=
  { w with queue := w.queue ++ [.despawnC e] }

/-- World::spawn (mod.rs lines 131-137): allocate the uninitialized entity right away
and enqueue the Spawn command. -/
def worldSpawn (w : WorldM) : Option (WorldM × Key) :=
  (createUninitEntity w.core).map
    (fun p => ({ w with core := p.1, queue := w.queue ++ [.spawnC p.2] }, p.2))

/-- Crust::flush / Mantle::flush (mod.rs lines 47-54 and 96-100): take the gate, drain
the queue in insertion order applying every command, release the gate. -/
def flushW (infos : Nat → Option ComponentInfoM) (w : WorldM) : Option WorldM := do
  let g1 ← beginFlush w.flushGuard
  let c ← w.queue.foldlM (applyCommand infos) w.core
  let g2 ← endFlush g1
  some ⟨c, [], g2⟩

/-- View::has (entity.rs lines 69-75): location lookup filtered through
archetype_has.  Runs under the read gate, whose begin and end cancel. -/
def viewHas (w : WorldM) (f : Nat) (e : Key) : Bool :=
  match w.core.entityIndex.get e with
  | some loc => archetypeHas w.core f loc.archetype
  | none => false

/-- World::get_entity (mod.rs lines 125-129) observed as a Bool: whether a View is
returned. -/
def getEntitySome (w : WorldM) (e : Key) : Bool :=
  (w.core.entityIndex.get e).isSome

/-- A default archetype, used only as the fallback of getD lookups that are guarded by
index bounds. -/
def dummyArch : ArchetypeM := ⟨[], [], [], []⟩

/-- Decidable check of entity-location consistency (testable property 2 of the spec):
every live entity whose recorded location is not the uninitialized sentinel sits at
exactly that row of that archetype, and every entity-list entry is mapped back to its
archetype and row by the entity index. -/
def locConsistent (st : CoreM) : Bool :=
  (st.entityIndex.slots.enum.all fun p =>
    match p.2.data with
    | some loc =>
        decide (loc.row = USIZEMAX) ||
          (((st.archetypes[loc.archetype]?).bind (fun a => a.entities[loc.row]?)) ==
            some ⟨p.1, p.2.generation⟩)
    | none => true) &&
  (st.archetypes.enum.all fun q =>
    q.2.entities.enum.all fun r =>
      st.entityIndex.get r.2 == some ⟨q.1, r.1⟩)

/-- Edge consistency as a proposition (testable property 4 of the spec): every add
edge for field f names a valid archetype whose signature is this signature with f,
and every remove edge one whose signature is this signature without f. -/
def EdgeOkP (st : CoreM) : Prop :=
  ∀ a ∈ st.archetypes, ∀ p ∈ a.edges,
    (∀ b, p.2.add = some b → b < st.archetypes.length ∧
      (st.archetypes.getD b dummyArch).signature = sigWith a.signature p.1) ∧
    (∀ b, p.2.remove = some b → b < st.archetypes.length ∧
      (st.archetypes.getD b dummyArch).signature = sigWithout a.signature p.1)

/-- Decidable check of edge consistency (testable property 4 of the spec): every add
edge for field f points at an archetype whose signature is this one with f, and every
remove edge at one whose signature is this one without f. -/
def edgeOkB (st : CoreM) : Bool :=
  st.archetypes.all fun a =>
    a.edges.all fun p =>
      (match p.2.add with
       | some b =>
           decide (b < st.archetypes.length) &&
             ((st.archetypes.getD b dummyArch).signature == sigWith a.signature p.1)
       | none => true) &&
      (match p.2.remove with
       | some b =>
           decide (b < st.archetypes.length) &&
             ((st.archetypes.getD b dummyArch).signature == sigWithout a.signature p.1)
       | none => true)

/-- Decidable check that signature_index is exactly the signature-to-id bijection over
the realized archetypes: every registered pair is valid and names an archetype with
that signature, and every archetype is registered under its own signature. -/
def sigOkB (st : CoreM) : Bool :=
  (st.signatureIndex.all fun p =>
    decide (p.2 < st.archetypes.length) &&
      ((st.archetypes.getD p.2 dummyArch).signature == p.1)) &&
  ((List.range st.archetypes.length).all fun id =>
    alGet st.signatureIndex (st.archetypes.getD id dummyArch).signature == some id)

/-- Decidable check that every realized signature is strictly sorted. -/
def sortedSigsB (st : CoreM) : Bool :=
  st.archetypes.all fun a => decide (a.signature.Pairwise (· < ·))

/-- Field-index coherence, forward direction (spec section 4.2): every field_index
entry for field f names a valid archetype and that archetype's signature contains f. -/
def FieldOkP (st : CoreM) : Prop :=
  ∀ p ∈ st.fieldIndex, ∀ q ∈ p.2,
    q.1 < st.archetypes.length ∧ p.1 ∈ (st.archetypes.getD q.1 dummyArch).signature

/-- Decidable check of the forward direction of field-index coherence. -/
def fieldOkB (st : CoreM) : Bool :=
  st.fieldIndex.all fun p =>
    p.2.all fun q =>
      decide (q.1 < st.archetypes.length) &&
        decide (p.1 ∈ (st.archetypes.getD q.1 dummyArch).signature)

/-! Concrete worlds used by the evaluation theorems below.  Entities e0, e1 and e2
carry slot indices 0, 1 and 2, all at generation 1. -/

def e0 : Key := ⟨0, 1⟩

def e1 : Key := ⟨1, 1⟩

def e2 : Key := ⟨2, 1⟩

/-- A one-byte one-aligned component whose FieldId is 5. -/
def info5 : ComponentInfoM := ⟨1, 1, 5⟩

/-- A one-byte one-aligned component whose FieldId is 7. -/
def info7 : ComponentInfoM := ⟨1, 1, 7⟩

/-- Registered component metadata: fields 5 and 7 are known, everything else is not. -/
def infosF : Nat → Option ComponentInfoM :=
  fun f => if f = 5 then some info5 else if f = 7 then some info7 else none

/-- Two live entities at rows 0 and 1 of the empty-signature archetype. -/
def stTwo : CoreM :=
  { entityIndex := ⟨[⟨1, some ⟨0, 0⟩⟩, ⟨1, some ⟨0, 1⟩⟩], []⟩,
    fieldIndex := [], signatureIndex := [([], 0)],
    archetypes := [⟨[], [e0, e1], [], []⟩] }

/-- Three live entities in one archetype holding a one-byte column for field 7 with
chunk bytes 1, 2, 3. -/
def stThree : CoreM :=
  { entityIndex := ⟨[⟨1, some ⟨0, 0⟩⟩, ⟨1, some ⟨0, 1⟩⟩, ⟨1, some ⟨0, 2⟩⟩], []⟩,
    fieldIndex := [(7, [(0, 0)])], signatureIndex := [([7], 0)],
    archetypes := [⟨[7], [e0, e1, e2], [⟨[1, 2, 3], info7, []⟩], []⟩] }

/-- One live entity alone in the empty-signature archetype. -/
def stOne : CoreM :=
  { entityIndex := ⟨[⟨1, some ⟨0, 0⟩⟩], []⟩,
    fieldIndex := [], signatureIndex := [([], 0)],
    archetypes := [⟨[], [e0], [], []⟩] }

/-- The world around stOne, idle gate, empty queue. -/
def wOne : WorldM := ⟨stOne, [], 0⟩

/-- One live entity owning component 5, with both the empty archetype and the
field-5 archetype realized and edge-connected. -/
def stHolds5 : CoreM :=
  { entityIndex := ⟨[⟨1, some ⟨1, 0⟩⟩], []⟩,
    fieldIndex := [(5, [(1, 0)])], signatureIndex := [([], 0), ([5], 1)],
    archetypes :=
      [⟨[], [], [], [(5, ⟨some 1, none⟩)]⟩,
        ⟨[5], [e0], [⟨[9], info5, []⟩], [(5, ⟨none, some 0⟩)]⟩] }

/-- The world around stHolds5, idle gate, empty queue. -/
def wHolds5 : WorldM := ⟨stHolds5, [], 0⟩

/-! Correctness of the embedded slice binary search on strictly sorted lists, and the
set semantics of the Signature operations built on it. -/

theorem getD_eq_getElem0 (xs : List Nat) (i : Nat) (h : i < xs.length) :
    xs.getD i 0 = xs[i] :=
  List.getD_eq_getElem xs 0 h

theorem sorted_getD_lt {xs : List Nat} (hs : xs.Pairwise (· < ·)) {i j : Nat}
    (hij : i < j) (hj : j < xs.length) : xs.getD i 0 < xs.getD j 0 := by
  have hi : i < xs.length := lt_trans hij hj
  rw [getD_eq_getElem0 xs i hi, getD_eq_getElem0 xs j hj]
  exact List.pairwise_iff_getElem.mp hs i j hi hj hij

theorem sorted_getD_le {xs : List Nat} (hs : xs.Pairwise (· < ·)) {i j : Nat}
    (hij : i ≤ j) (hj : j < xs.length) : xs.getD i 0 ≤ xs.getD j 0 := by
  rcases Nat.lt_or_ge i j with h | h
  · exact Nat.le_of_lt (sorted_getD_lt hs h hj)
  · have : i = j := Nat.le_antisymm hij h
    subst this
    exact Nat.le_refl _

theorem mem_iff_getD {xs : List Nat} {a : Nat} :
    a ∈ xs ↔ ∃ i, i < xs.length ∧ xs.getD i 0 = a := by
  rw [List.mem_iff_getElem]
  constructor
  · rintro ⟨n, hn, rfl⟩
    exact ⟨n, hn, getD_eq_getElem0 xs n hn⟩
  · rintro ⟨i, hi, h⟩
    exact ⟨i, hi, by rw [← getD_eq_getElem0 xs i hi, h]⟩

/-- Loop invariant of the branchless binary-search loop: starting from a window whose
left part is at most the target and whose right part is strictly greater, the final
base is a valid index with everything strictly after it greater than the target. -/
theorem bsLoopF_spec {xs : List Nat} {t : Nat} (hs : xs.Pairwise (· < ·)) :
    ∀ fuel size base, size ≤ fuel → 1 ≤ size → base + size ≤ xs.length →
      (base = 0 ∨ xs.getD base 0 ≤ t) →
      (∀ j, base + size ≤ j → j < xs.length → t < xs.getD j 0) →
      bsLoopF xs t fuel base size < xs.length ∧
        (bsLoopF xs t fuel base size = 0 ∨ xs.getD (bsLoopF xs t fuel base size) 0 ≤ t) ∧
        (∀ j, bsLoopF xs t fuel base size + 1 ≤ j → j < xs.length → t < xs.getD j 0) := by
  intro fuel
  induction fuel with
  | zero =>
    intro size base hf h1 h2 hA hB
    omega
  | succ fuel ih =>
    intro size base hf h1 h2 hA hB
    by_cases hsz : 1 < size
    · rw [show bsLoopF xs t (fuel + 1) base size =
          bsLoopF xs t fuel (if t < xs.getD (base + size / 2) 0 then base else base + size / 2)
            (size - size / 2) by
        rw [bsLoopF]
        rw [if_pos hsz]]
      have hhalf1 : 1 ≤ size / 2 := Nat.one_le_div_iff (by omega) |>.mpr (by omega)
      have hhalf2 : size / 2 < size := Nat.div_lt_self (by omega) (by omega)
      have hdouble : 2 * (size / 2) ≤ size := by omega
      by_cases hc : t < xs.getD (base + size / 2) 0
      · rw [if_pos hc]
        refine ih (size - size / 2) base (by omega) (by omega) (by omega) hA ?_
        intro j hj hjlen
        have hmid : base + size / 2 ≤ j := by omega
        calc t < xs.getD (base + size / 2) 0 := hc
          _ ≤ xs.getD j 0 := sorted_getD_le hs hmid hjlen
      · rw [if_neg hc]
        refine ih (size - size / 2) (base + size / 2) (by omega) (by omega) (by omega)
          (Or.inr (Nat.le_of_not_lt hc)) ?_
        intro j hj hjlen
        exact hB j (by omega) hjlen
    · rw [show bsLoopF xs t (fuel + 1) base size = base by
        rw [bsLoopF]
        rw [if_neg hsz]]
      have hsz1 : size = 1 := by omega
      subst hsz1
      exact ⟨by omega, hA, fun j hj hjlen => hB j (by omega) hjlen⟩

theorem bsLoop_spec {xs : List Nat} {t : Nat} (hs : xs.Pairwise (· < ·)) :
    ∀ size base, 1 ≤ size → base + size ≤ xs.length →
      (base = 0 ∨ xs.getD base 0 ≤ t) →
      (∀ j, base + size ≤ j → j < xs.length → t < xs.getD j 0) →
      bsLoop xs t base size < xs.length ∧
        (bsLoop xs t base size = 0 ∨ xs.getD (bsLoop xs t base size) 0 ≤ t) ∧
        (∀ j, bsLoop xs t base size + 1 ≤ j → j < xs.length → t < xs.getD j 0) := by
  intro size base h1 h2 hA hB
  exact bsLoopF_spec hs size size base (Nat.le_refl size) h1 h2 hA hB

/-- binary_search returning Ok lands on a position holding exactly the target. -/
theorem binarySearch_ok_spec {xs : List Nat} {t b : Nat} (hs : xs.Pairwise (· < ·))
    (h : binarySearch xs t = .ok b) : b < xs.length ∧ xs.getD b 0 = t := by
  by_cases hlen : xs.length = 0
  · rw [binarySearch, if_pos hlen] at h
    exact absurd h (by simp)
  · rw [binarySearch, if_neg hlen, bsFinish] at h
    have hspec := @bsLoop_spec xs t hs xs.length 0 (by omega) (by omega) (Or.inl rfl)
      (fun j hj hjlen => absurd hjlen (by omega))
    by_cases he : xs.getD (bsLoop xs t 0 xs.length) 0 = t
    · rw [if_pos he] at h
      injection h with h
      subst h
      exact ⟨hspec.1, he⟩
    · rw [if_neg he] at h
      by_cases hlt : xs.getD (bsLoop xs t 0 xs.length) 0 < t
      · rw [if_pos hlt] at h
        exact absurd h (by simp)
      · rw [if_neg hlt] at h
        exact absurd h (by simp)

/-- binary_search returning Err partitions the list around the insertion point:
everything before it is strictly below the target, everything from it on strictly
above. -/
theorem binarySearch_err_spec {xs : List Nat} {t b : Nat} (hs : xs.Pairwise (· < ·))
    (h : binarySearch xs t = .error b) :
    b ≤ xs.length ∧ (∀ i, i < b → xs.getD i 0 < t) ∧
      (∀ j, b ≤ j → j < xs.length → t < xs.getD j 0) := by
  by_cases hlen : xs.length = 0
  · rw [binarySearch, if_pos hlen] at h
    injection h with h
    subst h
    exact ⟨by omega, fun i hi => by omega, fun j hj hjlen => by omega⟩
  · rw [binarySearch, if_neg hlen, bsFinish] at h
    have hspec := @bsLoop_spec xs t hs xs.length 0 (by omega) (by omega) (Or.inl rfl)
      (fun j hj hjlen => absurd hjlen (by omega))
    by_cases he : xs.getD (bsLoop xs t 0 xs.length) 0 = t
    · rw [if_pos he] at h
      exact absurd h (by simp)
    · rw [if_neg he] at h
      by_cases hlt : xs.getD (bsLoop xs t 0 xs.length) 0 < t
      · rw [if_pos hlt] at h
        injection h with h
        subst h
        refine ⟨by omega, ?_, fun j hj hjlen => hspec.2.2 j hj hjlen⟩
        intro i hi
        have hle : xs.getD i 0 ≤ xs.getD (bsLoop xs t 0 xs.length) 0 :=
          sorted_getD_le hs (by omega) hspec.1
        omega
      · rw [if_neg hlt] at h
        injection h with h
        subst h
        have hgt : t < xs.getD (bsLoop xs t 0 xs.length) 0 := by omega
        have hb0 : bsLoop xs t 0 xs.length = 0 := by
          rcases hspec.2.1 with h0 | hle
          · exact h0
          · omega
        refine ⟨by omega, fun i hi => by omega, ?_⟩
        intro j hj hjlen
        rcases Nat.eq_or_lt_of_le hj with hj0 | hj1
        · rw [← hj0, hb0]
          rw [hb0] at hgt
          exact hgt
        · exact hspec.2.2 j (by omega) hjlen

theorem binarySearch_err_not_mem {xs : List Nat} {t b : Nat} (hs : xs.Pairwise (· < ·))
    (h : binarySearch xs t = .error b) : t ∉ xs := by
  obtain ⟨hb, hlo, hhi⟩ := binarySearch_err_spec hs h
  intro hmem
  obtain ⟨i, hi, hit⟩ := mem_iff_getD.mp hmem
  rcases Nat.lt_or_ge i b with hlt | hge
  · have := hlo i hlt
    omega
  · have := hhi i hge hi
    omega

theorem binarySearch_mem_ok {xs : List Nat} {t : Nat} (hs : xs.Pairwise (· < ·))
    (hmem : t ∈ xs) : ∃ b, binarySearch xs t = .ok b := by
  cases h : binarySearch xs t with
  | ok b => exact ⟨b, rfl⟩
  | error b => exact absurd hmem (binarySearch_err_not_mem hs h)

theorem sigWith_eq_of_ok {xs : List Nat} {t b : Nat} (h : binarySearch xs t = .ok b) :
    sigWith xs t = xs := by
  unfold sigWith
  rw [h]

theorem sigWith_eq_of_err {xs : List Nat} {t b : Nat} (h : binarySearch xs t = .error b) :
    sigWith xs t = xs.insertIdx b t := by
  unfold sigWith
  rw [h]

theorem sigWithout_eq_of_ok {xs : List Nat} {t b : Nat} (h : binarySearch xs t = .ok b) :
    sigWithout xs t = xs.eraseIdx b := by
  unfold sigWithout
  rw [h]

theorem sigWithout_eq_of_err {xs : List Nat} {t b : Nat} (h : binarySearch xs t = .error b) :
    sigWithout xs t = xs := by
  unfold sigWithout
  rw [h]

/-- Signature::contains decides membership on a sorted deduplicated sequence. -/
theorem sigContains_iff {xs : List Nat} {t : Nat} (hs : xs.Pairwise (· < ·)) :
    sigContains xs t = true ↔ t ∈ xs := by
  unfold sigContains
  cases h : binarySearch xs t with
  | ok b =>
    obtain ⟨hb, he⟩ := binarySearch_ok_spec hs h
    constructor
    · intro _
      exact mem_iff_getD.mpr ⟨b, hb, he⟩
    · intro _
      rfl
  | error b =>
    constructor
    · intro hcon
      exact absurd hcon (by simp)
    · intro hmem
      exact absurd hmem (binarySearch_err_not_mem hs h)

/-- Signature::with adds exactly the new field to the member set. -/
theorem mem_sigWith {xs : List Nat} {t a : Nat} (hs : xs.Pairwise (· < ·)) :
    a ∈ sigWith xs t ↔ a = t ∨ a ∈ xs := by
  cases h : binarySearch xs t with
  | ok b =>
    obtain ⟨hb, he⟩ := binarySearch_ok_spec hs h
    have hmem : t ∈ xs := mem_iff_getD.mpr ⟨b, hb, he⟩
    rw [sigWith_eq_of_ok h]
    constructor
    · exact Or.inr
    · rintro (rfl | hx)
      · exact hmem
      · exact hx
  | error b =>
    have hble := (binarySearch_err_spec hs h).1
    rw [sigWith_eq_of_err h]
    exact List.mem_insertIdx hble

/-- Signature::with preserves strict sortedness. -/
theorem sigWith_sorted {xs : List Nat} {t : Nat} (hs : xs.Pairwise (· < ·)) :
    (sigWith xs t).Pairwise (· < ·) := by
  cases h : binarySearch xs t with
  | ok b =>
    rw [sigWith_eq_of_ok h]
    exact hs
  | error b =>
    obtain ⟨hble, hlo, hhi⟩ := binarySearch_err_spec hs h
    rw [sigWith_eq_of_err h]
    rw [List.pairwise_iff_getElem]
    have hlen : (xs.insertIdx b t).length = xs.length + 1 := List.length_insertIdx b xs hble
    intro i j hi hj hij
    rw [hlen] at hi hj
    have hlo2 : ∀ k (hk : k < b) (hk2 : k < xs.length), xs[k] < t := by
      intro k hk hk2
      have := hlo k hk
      rwa [getD_eq_getElem0 xs k hk2] at this
    have hhi2 : ∀ k (hk : b ≤ k) (hk2 : k < xs.length), t < xs[k] := by
      intro k hk hk2
      have := hhi k hk hk2
      rwa [getD_eq_getElem0 xs k hk2] at this
    have hxs := List.pairwise_iff_getElem.mp hs
    rcases Nat.lt_trichotomy i b with hib | hib | hib
    · have hi2 : i < xs.length := by omega
      rw [List.getElem_insertIdx_of_lt xs t b i hib hi2]
      rcases Nat.lt_trichotomy j b with hjb | hjb | hjb
      · have hj2 : j < xs.length := by omega
        rw [List.getElem_insertIdx_of_lt xs t b j hjb hj2]
        exact hxs i j hi2 hj2 hij
      · subst hjb
        rw [List.getElem_insertIdx_self xs t j hble]
        exact hlo2 i hib hi2
      · obtain ⟨k, rfl⟩ : ∃ k, j = b + k + 1 := ⟨j - b - 1, by omega⟩
        have hk : b + k < xs.length := by omega
        rw [List.getElem_insertIdx_add_succ xs t b k hk]
        rcases Nat.lt_or_ge i (b + k) with hlt | hge
        · exact hxs i (b + k) hi2 hk hlt
        · have h1 := hlo2 i hib hi2
          have h2 := hhi2 (b + k) (by omega) hk
          omega
    · subst hib
      rw [List.getElem_insertIdx_self xs t i hble]
      obtain ⟨k, rfl⟩ : ∃ k, j = i + k + 1 := ⟨j - i - 1, by omega⟩
      have hk : i + k < xs.length := by omega
      rw [List.getElem_insertIdx_add_succ xs t i k hk]
      exact hhi2 (i + k) (by omega) hk
    · obtain ⟨k, rfl⟩ : ∃ k, i = b + k + 1 := ⟨i - b - 1, by omega⟩
      obtain ⟨k2, rfl⟩ : ∃ k2, j = b + k2 + 1 := ⟨j - b - 1, by omega⟩
      have hk2 : b + k2 < xs.length := by omega
      rw [List.getElem_insertIdx_add_succ xs t b k (by omega),
        List.getElem_insertIdx_add_succ xs t b k2 hk2]
      exact hxs (b + k) (b + k2) (by omega) hk2 (by omega)

/-- Signature::without removes exactly the field from the member set. -/
theorem mem_sigWithout {xs : List Nat} {t a : Nat} (hs : xs.Pairwise (· < ·)) :
    a ∈ sigWithout xs t ↔ a ∈ xs ∧ a ≠ t := by
  cases h : binarySearch xs t with
  | ok b =>
    obtain ⟨hb, he⟩ := binarySearch_ok_spec hs h
    rw [sigWithout_eq_of_ok h, List.eraseIdx_eq_take_drop_succ]
    constructor
    · intro hmem
      rcases List.mem_append.mp hmem with htake | hdrop
      · obtain ⟨i, hi, rfl⟩ := List.mem_iff_getElem.mp htake
        have hi2 : i < b := by
          have hlt := hi
          simp only [List.length_take] at hlt
          omega
        have hi3 : i < xs.length := by omega
        rw [List.getElem_take]
        refine ⟨List.getElem_mem hi3, ?_⟩
        have hne := sorted_getD_lt hs hi2 hb
        rw [getD_eq_getElem0 xs i hi3, he] at hne
        omega
      · obtain ⟨i, hi, rfl⟩ := List.mem_iff_getElem.mp hdrop
        have hi2 : b + 1 + i < xs.length := by
          have hlt := hi
          simp only [List.length_drop] at hlt
          omega
        rw [List.getElem_drop]
        refine ⟨List.getElem_mem hi2, ?_⟩
        have hne := sorted_getD_lt hs (show b < b + 1 + i by omega) hi2
        rw [he, getD_eq_getElem0 xs _ hi2] at hne
        omega
    · rintro ⟨hmem, hne⟩
      obtain ⟨i, hi, rfl⟩ := List.mem_iff_getElem.mp hmem
      have hib : i ≠ b := by
        intro hcon
        subst hcon
        rw [getD_eq_getElem0 xs i hi] at he
        exact hne he
      rcases Nat.lt_or_ge i b with hlt | hge
      · refine List.mem_append.mpr (Or.inl ?_)
        rw [List.mem_iff_getElem]
        refine ⟨i, by simp only [List.length_take]; omega, ?_⟩
        rw [List.getElem_take]
      · have hgt : b + 1 ≤ i := by omega
        refine List.mem_append.mpr (Or.inr ?_)
        rw [List.mem_iff_getElem]
        refine ⟨i - (b + 1), by simp only [List.length_drop]; omega, ?_⟩
        rw [List.getElem_drop]
        congr 1
        omega
  | error b =>
    rw [sigWithout_eq_of_err h]
    have hnm := binarySearch_err_not_mem hs h
    constructor
    · intro hmem
      refine ⟨hmem, ?_⟩
      rintro rfl
      exact hnm hmem
    · exact fun hp => hp.1

/-- Signature::without preserves strict sortedness. -/
theorem sigWithout_sorted {xs : List Nat} {t : Nat} (hs : xs.Pairwise (· < ·)) :
    (sigWithout xs t).Pairwise (· < ·) := by
  cases h : binarySearch xs t with
  | ok b =>
    rw [sigWithout_eq_of_ok h]
    exact List.Pairwise.sublist (List.eraseIdx_sublist xs b) hs
  | error b =>
    rw [sigWithout_eq_of_err h]
    exact hs

/-- Two strictly sorted lists with the same members are equal. -/
theorem sorted_ext {s t : List Nat} (hs : s.Pairwise (· < ·)) (ht : t.Pairwise (· < ·))
    (h : ∀ a, a ∈ s ↔ a ∈ t) : s = t := by
  have hsd : s.Nodup := hs.imp Nat.ne_of_lt
  have htd : t.Nodup := ht.imp Nat.ne_of_lt
  have hperm : s.Perm t := by
    apply List.perm_of_nodup_nodup_toFinset_eq hsd htd
    ext a
    simp only [List.mem_toFinset]
    exact h a
  exact List.eq_of_perm_of_sorted hperm (hs.imp (fun hab => Nat.le_of_lt hab))
    (ht.imp (fun hab => Nat.le_of_lt hab))

/-- Removing a present field and adding it back restores the signature. -/
theorem sigWith_sigWithout_cancel {s : List Nat} {f : Nat} (hs : s.Pairwise (· < ·))
    (hf : f ∈ s) : sigWith (sigWithout s f) f = s := by
  have h1 : (sigWithout s f).Pairwise (· < ·) := sigWithout_sorted hs
  apply sorted_ext (sigWith_sorted h1) hs
  intro a
  rw [mem_sigWith h1, mem_sigWithout hs]
  constructor
  · rintro (rfl | ⟨hm, _⟩)
    · exact hf
    · exact hm
  · intro hm
    by_cases ha : a = f
    · exact Or.inl ha
    · exact Or.inr ⟨hm, ha⟩

theorem dedupConsec_subset : ∀ {l : List Nat} {x : Nat}, x ∈ dedupConsec l → x ∈ l
  | [], _, h => h
  | [_], _, h => h
  | a :: b :: rest, x, h => by
      unfold dedupConsec at h
      by_cases hab : a = b
      · simp only [hab, if_pos] at h
        exact List.mem_cons_of_mem a (dedupConsec_subset h)
      · simp only [hab, if_neg, not_false_iff, List.mem_cons] at h
        rcases h with rfl | h
        · exact List.mem_cons_self x (b :: rest)
        · exact List.mem_cons_of_mem a (dedupConsec_subset h)

theorem dedupConsec_pairwise : ∀ {l : List Nat}, l.Pairwise (· ≤ ·) →
    (dedupConsec l).Pairwise (· < ·)
  | [], _ => List.Pairwise.nil
  | [a], _ => List.pairwise_singleton _ a
  | a :: b :: rest, h => by
      obtain ⟨hhead, htail⟩ := List.pairwise_cons.mp h
      unfold dedupConsec
      by_cases hab : a = b
      · simp only [hab, if_pos]
        exact dedupConsec_pairwise htail
      · simp only [hab, if_neg, not_false_iff]
        refine List.pairwise_cons.mpr ⟨?_, dedupConsec_pairwise htail⟩
        intro x hx
        have hxm : x ∈ b :: rest := dedupConsec_subset hx
        have hax : a ≤ x := hhead x hxm
        have hab2 : a < b := Nat.lt_of_le_of_ne (hhead b (List.mem_cons_self b rest)) hab
        rcases List.mem_cons.mp hxm with rfl | hxr
        · exact hab2
        · have hbx : b ≤ x := (List.pairwise_cons.mp htail).1 x hxr
          omega

/-- Signature::new always yields a strictly sorted (hence deduplicated) sequence. -/
theorem sigNew_sorted (l : List Nat) : (sigNew l).Pairwise (· < ·) := by
  unfold sigNew
  exact dedupConsec_pairwise (List.sorted_mergeSort' l)

/-- Claim C10: on a strictly sorted deduplicated signature, Signature::with is
insertion-order independent and idempotent, with and without preserve the sorted
deduplicated form, and Signature::new always produces a sorted deduplicated
sequence, so the same component set reaches the same signature in any order. -/
theorem c10_signature_insertion_order (s : List Nat) (f g : Nat)
    (hs : s.Pairwise (· < ·)) :
    sigWith (sigWith s f) g = sigWith (sigWith s g) f ∧
    sigWith (sigWith s f) f = sigWith s f ∧
    (sigWith s f).Pairwise (· < ·) ∧
    (sigWithout s f).Pairwise (· < ·) ∧
    (∀ l : List Nat, (sigNew l).Pairwise (· < ·)) := by
  have hsf : (sigWith s f).Pairwise (· < ·) := @sigWith_sorted s f hs
  have hsg : (sigWith s g).Pairwise (· < ·) := @sigWith_sorted s g hs
  refine ⟨?_, ?_, hsf, @sigWithout_sorted s f hs, sigNew_sorted⟩
  · apply sorted_ext (@sigWith_sorted _ g hsf) (@sigWith_sorted _ f hsg)
    intro a
    rw [mem_sigWith hsf, mem_sigWith hs, mem_sigWith hsg, mem_sigWith hs]
    tauto
  · apply sorted_ext (@sigWith_sorted _ f hsf) hsf
    intro a
    rw [mem_sigWith hsf, mem_sigWith hs]
    tauto

/-- Witness for C10 at the concrete signature [3] with fields 1 and 2. -/
theorem c10_witness :
    sigWith (sigWith [3] 1) 2 = sigWith (sigWith [3] 2) 1 ∧
    sigWith (sigWith [3] 1) 1 = sigWith [3] 1 :=
  (fun h => ⟨h.1, h.2.1⟩) (c10_signature_insertion_order [3] 1 2 (by decide))

/-- Claim C9: converting an Entity handle to a FieldId keeps only the low 32 bits (the
slot index) and zeroes the upper 32, discarding the generation: handles with the same
index and any two generations produce equal FieldIds, equal to the bare index, so a
stale handle names the same field as the live one in archetype_has lookups. -/
theorem c9_fieldid_ignores_generation (i g1 g2 : Nat) (hi : i < 2 ^ 32) :
    fieldIdOfEntity ⟨i, g1⟩ = fieldIdOfEntity ⟨i, g2⟩ ∧
    fieldIdOfEntity ⟨i, g1⟩ = i ∧
    fieldIdOfEntity ⟨i, g1⟩ < 2 ^ 32 ∧
    (∀ st a, archetypeHas st (fieldIdOfEntity ⟨i, g1⟩) a =
      archetypeHas st (fieldIdOfEntity ⟨i, g2⟩) a) := by
  have key : ∀ g : Nat, fieldIdOfEntity ⟨i, g⟩ = i := by
    intro g
    show (g * 2 ^ 32 + i) % 2 ^ 32 = i
    rw [Nat.add_comm, Nat.add_mul_mod_self_right, Nat.mod_eq_of_lt hi]
  refine ⟨by rw [key, key], key g1, by rw [key]; exact hi, ?_⟩
  intro st a
  rw [key, key]

/-- Witness for C9 at index 3, generations 1 and 2. -/
theorem c9_witness :
    fieldIdOfEntity ⟨3, 1⟩ = fieldIdOfEntity ⟨3, 2⟩ ∧ fieldIdOfEntity ⟨3, 1⟩ = 3 :=
  (fun h => ⟨h.1, h.2.1⟩) (c9_fieldid_ignores_generation 3 1 2 (by norm_num))

/-- Claim C3: a View::get call that hands out a live ColumnReadGuard leaves the flush
gate counter at one more than it found it, so the counter stays in the reader regime
(at least 1) while the guard is alive; begin_flush — the entry point of
World::flush — panics on any non-zero counter and succeeds exactly on zero. -/
theorem c3_guard_blocks_flush (g : Nat) (hg : g + 2 < USIZEMAX) :
    getGuardGate g = some (g + 1) ∧
    1 ≤ g + 1 ∧
    beginFlush (g + 1) = none ∧
    (∀ n, 1 ≤ n → beginFlush n = none) ∧
    (∀ n, (beginFlush n).isSome ↔ n = 0) := by
  have e1 : beginRead g = some (g + 1) := by
    unfold beginRead
    rw [if_pos]
    omega
  have e2 : beginRead (g + 1) = some (g + 2) := by
    unfold beginRead
    rw [if_pos]
    omega
  have e3 : endRead (g + 2) = some (g + 1) := by
    unfold endRead
    rw [if_pos (show 0 < g + 2 ∧ g + 2 < USIZEMAX by omega)]
    congr 1
  refine ⟨by simp [getGuardGate, e1, e2, e3], by omega, ?_, ?_, ?_⟩
  · unfold beginFlush
    rw [if_neg (by omega : ¬(g + 1 = 0))]
  · intro n hn
    unfold beginFlush
    rw [if_neg (by omega : ¬(n = 0))]
  · intro n
    unfold beginFlush
    by_cases hn : n = 0 <;> simp [hn]

/-- Witness for C3 from an idle gate: taking a guard leaves the counter at one and a
flush attempted there panics. -/
theorem c3_witness : getGuardGate 0 = some 1 ∧ beginFlush 1 = none :=
  (fun h => ⟨h.1, h.2.2.1⟩) (c3_guard_blocks_flush 0 (by decide))

/-- Claim C2 (code bug): Column::write_into on an existing row drops the old chunk and
should overwrite exactly that chunk, but its copy destination slice
buffer[row*size..] runs to the end of the buffer, so copy_from_slice panics on the
length mismatch for every existing row except the last; the last row and the append
row behave as specified. -/
theorem c2_write_into_eval :
    Column.writeInto ⟨[10, 20], info7, []⟩ 0 [9] = none ∧
    Column.writeInto ⟨[10, 20], info7, []⟩ 1 [9] = some ⟨[10, 9], info7, [[20]]⟩ ∧
    Column.writeInto ⟨[10, 20], info7, []⟩ 2 [9] = some ⟨[10, 20, 9], info7, []⟩ := by
  decide

/-- Claim C5 (code bug): Archetype::drop calls Column::swap_drop on every column, but
swap_drop divides buffer.len() by info.size — a division by zero for every zero-sized
component — and its swap_with_last swaps slices of unequal length for any row more
than two chunks from the end; where it does run, the drop trace shows the now-last
chunk handed to the drop thunk twice (once directly and once again inside
shrink_to_fit, which still sees it). -/
theorem c5_swap_drop_eval :
    Column.swapDrop ⟨[], ⟨0, 1, 7⟩, []⟩ 0 = none ∧
    ArchetypeM.dropRow ⟨[7], [e0], [⟨[], ⟨0, 1, 7⟩, []⟩], []⟩ 0 = none ∧
    Column.swapDrop ⟨[1, 2, 3], info7, []⟩ 0 = none ∧
    Column.swapDrop ⟨[1, 2, 3], info7, []⟩ 1 = some ⟨[1, 3], info7, [[2], [2]]⟩ := by
  decide

/-- Claim C1 (code bug): entity-location consistency holds in the two-entity world but
is broken by Core::despawn, which swap-removes the despawned row without updating the
displaced entity's index entry: despawning e0 leaves e1 at row 0 of the archetype
while its index entry still records row 1. -/
theorem c1_despawn_breaks_consistency :
    locConsistent stTwo = true ∧
    (despawnE stTwo e0).map locConsistent = some false ∧
    (despawnE stTwo e0).map (fun st => (st.entityIndex.get e1,
      st.archetypes.map ArchetypeM.entities)) = some (some ⟨0, 1⟩, [[e1]]) := by
  decide

/-- Claim C4 (code bug): the insert-then-remove round trip panics before completing
whenever the entity sits more than two rows from the end of a populated column,
because Column::swap_with_last inside move_entity swaps slices of unequal length
(insert on the row-0 entity of three); on rows where the byte moves do run, the
entity does come back to its original ArchetypeId (insert then remove on the last-row
entity returns it to archetype 0). -/
theorem c4_roundtrip_eval :
    insertBytes infosF stThree info5 [9] e0 = none ∧
    ((insertBytes infosF stThree info5 [9] e2).bind fun p =>
      (removeField infosF p.1 5 e2).map fun q => (q.2.archetype, q.1.entityIndex.get e2)) =
      some (0, some ⟨0, 2⟩) := by
  decide

/-- Claim C8 (amended): SlotMap::insert always hands out a non-zero generation,
reuses the last freed index of the free list with the generation incremented and
wrapping from u32::MAX back to 1, and panics exactly when the free list is empty and
u32::MAX = 2^32 - 1 slots already exist — one slot short of the full 2^32 index
space. -/
theorem c8_slotmap_insert_spec (m : SlotMap EntityLoc) (v : EntityLoc)
    (hav : ∀ i ∈ m.available, i < m.slots.length) :
    (∀ m2 k, SlotMap.insert m v = some (m2, k) → k.generation ≠ 0) ∧
    (m.available = [] → m.slots.length ≠ U32MAX →
      SlotMap.insert m v =
        some ({ slots := m.slots ++ [⟨1, some v⟩], available := m.available },
          ⟨m.slots.length, 1⟩)) ∧
    (∀ l i s, m.available = l ++ [i] → m.slots[i]? = some s →
      SlotMap.insert m v =
        some ({ slots := m.slots.set i
                  ⟨if s.generation ≠ U32MAX then s.generation + 1 else 1, some v⟩,
                available := m.available.dropLast },
          ⟨i, if s.generation ≠ U32MAX then s.generation + 1 else 1⟩)) ∧
    (SlotMap.insert m v = none ↔ m.available = [] ∧ m.slots.length = U32MAX) := by
  cases hl : m.available.getLast? with
  | none =>
    have hemp : m.available = [] := List.getLast?_eq_none_iff.mp hl
    by_cases hlen : m.slots.length = U32MAX
    · have hins : SlotMap.insert m v = none := by
        unfold SlotMap.insert
        rw [hl, if_pos hlen]
      refine ⟨?_, ?_, ?_, ?_⟩
      · intro m2 k hk
        rw [hins] at hk
        exact absurd hk (by simp)
      · intro _ hne
        exact absurd hlen hne
      · intro l i s hcat _
        rw [hemp] at hcat
        exact absurd hcat.symm (List.append_ne_nil_of_right_ne_nil l (by simp))
      · rw [hins]
        simp [hemp, hlen]
    · have hins : SlotMap.insert m v =
          some ({ slots := m.slots ++ [⟨1, some v⟩], available := m.available },
            ⟨m.slots.length, 1⟩) := by
        unfold SlotMap.insert
        rw [hl, if_neg hlen]
      refine ⟨?_, fun _ _ => hins, ?_, ?_⟩
      · intro m2 k hk
        rw [hins] at hk
        injection hk with hk
        have hkk : k = ⟨m.slots.length, 1⟩ := ((Prod.ext_iff.mp hk).2).symm
        rw [hkk]
        simp
      · intro l i s hcat _
        rw [hemp] at hcat
        exact absurd hcat.symm (List.append_ne_nil_of_right_ne_nil l (by simp))
      · rw [hins]
        simp [hlen]
  | some idx =>
    obtain ⟨ys, hys⟩ := List.getLast?_eq_some_iff.mp hl
    have hmem : idx ∈ m.available := by
      rw [hys]
      simp
    have hidx : idx < m.slots.length := hav idx hmem
    obtain ⟨s0, hs0⟩ : ∃ s0, m.slots[idx]? = some s0 :=
      ⟨m.slots[idx], List.getElem?_eq_getElem hidx⟩
    have hins : SlotMap.insert m v =
        some ({ slots := m.slots.set idx
                  ⟨if s0.generation ≠ U32MAX then s0.generation + 1 else 1, some v⟩,
                available := m.available.dropLast },
          ⟨idx, if s0.generation ≠ U32MAX then s0.generation + 1 else 1⟩) := by
      unfold SlotMap.insert
      rw [hl]
      simp only [hs0]
    refine ⟨?_, ?_, ?_, ?_⟩
    · intro m2 k hk
      rw [hins] at hk
      injection hk with hk
      have hkk : k = ⟨idx, if s0.generation ≠ U32MAX then s0.generation + 1 else 1⟩ :=
        ((Prod.ext_iff.mp hk).2).symm
      rw [hkk]
      by_cases hgen : s0.generation ≠ U32MAX <;> simp [hgen]
    · intro hemp _
      rw [hemp] at hys
      exact absurd hys (by simp)
    · intro l i s hcat hsl
      have hii : idx = i := by
        rw [hcat, List.getLast?_concat] at hl
        exact (Option.some_inj.mp hl).symm
      subst hii
      have hss : s = s0 := by
        rw [hsl] at hs0
        exact Option.some_inj.mp hs0
      subst hss
      exact hins
    · rw [hins]
      constructor
      · intro hcon
        exact absurd hcon (by simp)
      · rintro ⟨hemp, _⟩
        rw [hemp] at hys
        exact absurd hys (by simp)

/-- Witness for C8: reusing the single freed slot bumps its generation from 1 to 2. -/
theorem c8_witness :
    SlotMap.insert (⟨[⟨1, none⟩], [0]⟩ : SlotMap EntityLoc) ⟨0, 0⟩ =
      some (⟨[⟨2, some ⟨0, 0⟩⟩], []⟩, ⟨0, 2⟩) := by
  have h := (c8_slotmap_insert_spec ⟨[⟨1, none⟩], [0]⟩ ⟨0, 0⟩ (by decide)).2.2.1 [] 0
    ⟨1, none⟩ rfl rfl
  rw [h]
  decide

/-! Support lemmas for the edge-consistency invariant of the archetype graph. -/

theorem getD_set {α : Type} {l : List α} {i j : Nat} {a d : α} :
    (l.set i a).getD j d = if i = j ∧ i < l.length then a else l.getD j d := by
  rw [List.getD_eq_getElem?_getD, List.getD_eq_getElem?_getD, List.getElem?_set]
  by_cases hij : i = j
  · subst hij
    by_cases hl : i < l.length
    · simp [hl]
    · simp only [hl, and_false, if_false, if_pos rfl, if_neg hl]
      rw [List.getElem?_eq_none (by omega)]
      simp
  · simp [hij]

theorem alGet_mem {κ β : Type} [DecidableEq κ] :
    ∀ {l : List (κ × β)} {k : κ} {v : β}, alGet l k = some v → (k, v) ∈ l
  | [], k, v, h => by
      simp [alGet] at h
  | (k2, w) :: rest, k, v, h => by
      unfold alGet at h
      by_cases hk : k2 = k
      · rw [if_pos hk] at h
        injection h with h
        rw [← hk, ← h]
        exact List.mem_cons_self _ _
      · rw [if_neg hk] at h
        exact List.mem_cons_of_mem _ (alGet_mem h)

theorem alInsert_mem {κ β : Type} [DecidableEq κ] :
    ∀ {l : List (κ × β)} {k : κ} {v : β} {q : κ × β}, q ∈ alInsert l k v →
      q = (k, v) ∨ q ∈ l
  | [], k, v, q, h => by
      unfold alInsert at h
      rcases List.mem_singleton.mp h with rfl
      exact Or.inl rfl
  | (k2, w) :: rest, k, v, q, h => by
      unfold alInsert at h
      by_cases hk : k2 = k
      · rw [if_pos hk] at h
        rcases List.mem_cons.mp h with rfl | hr
        · exact Or.inl (by rw [hk])
        · exact Or.inr (List.mem_cons_of_mem _ hr)
      · rw [if_neg hk] at h
        rcases List.mem_cons.mp h with rfl | hr
        · exact Or.inr (List.mem_cons_self _ _)
        · rcases alInsert_mem hr with h1 | h2
          · exact Or.inl h1
          · exact Or.inr (List.mem_cons_of_mem _ h2)

theorem alUpdate_mem {κ β : Type} [DecidableEq κ] {d : β} {g : β → β} :
    ∀ {l : List (κ × β)} {k : κ} {q : κ × β}, q ∈ alUpdate d g l k →
      q ∈ l ∨ (q.1 = k ∧ (q.2 = g d ∨ ∃ w, (k, w) ∈ l ∧ q.2 = g w))
  | [], k, q, h => by
      unfold alUpdate at h
      rcases List.mem_singleton.mp h with rfl
      exact Or.inr ⟨rfl, Or.inl rfl⟩
  | (k2, w) :: rest, k, q, h => by
      unfold alUpdate at h
      by_cases hk : k2 = k
      · rw [if_pos hk] at h
        rcases List.mem_cons.mp h with rfl | hr
        · exact Or.inr ⟨hk, Or.inr ⟨w, by rw [← hk]; exact List.mem_cons_self _ _, rfl⟩⟩
        · exact Or.inl (List.mem_cons_of_mem _ hr)
      · rw [if_neg hk] at h
        rcases List.mem_cons.mp h with rfl | hr
        · exact Or.inl (List.mem_cons_self _ _)
        · rcases alUpdate_mem hr with h1 | ⟨h2, h3⟩
          · exact Or.inl (List.mem_cons_of_mem _ h1)
          · refine Or.inr ⟨h2, ?_⟩
            rcases h3 with h3 | ⟨w2, hw2, hq2⟩
            · exact Or.inl h3
            · exact Or.inr ⟨w2, List.mem_cons_of_mem _ hw2, hq2⟩

theorem getD_mem_of_lt {α : Type} {l : List α} {i : Nat} {d : α} (h : i < l.length) :
    l.getD i d ∈ l := by
  rw [List.getD_eq_getElem l d h]
  exact List.getElem_mem h

/-- Claim C8 as stated is false on the code: with the free list empty and
2^32 - 1 slots in use, insert already panics, although the 2^32-entity index space
of the claim is not exhausted. -/
theorem c8_counterexample :
    SlotMap.insert (⟨List.replicate U32MAX ⟨1, none⟩, []⟩ : SlotMap EntityLoc) ⟨0, 0⟩ =
      none ∧
    (List.replicate U32MAX (⟨1, none⟩ : Slot EntityLoc)).length ≠ 2 ^ 32 := by
  constructor
  · unfold SlotMap.insert
    simp
  · simp only [List.length_replicate]
    norm_num [U32MAX]

theorem withEdges_signature (a : ArchetypeM) (ed : List (Nat × EdgeM)) :
    (withEdges a ed).signature = a.signature := rfl

/-- One connect_edges iteration preserves edge consistency: the new remove edge on the
created archetype and the new add edge on its realized neighbour both satisfy the
signature equations; lengths, signatures and the signature index are unchanged. -/
theorem connectStep_edgeOk {sig : List Nat} {id f : Nat} {st1 st2 : CoreM}
    (hf : f ∈ sig) (hsig : (st1.archetypes.getD id dummyArch).signature = sig)
    (hid : id < st1.archetypes.length)
    (hsx : ∀ p ∈ st1.signatureIndex, p.2 < st1.archetypes.length ∧
      (st1.archetypes.getD p.2 dummyArch).signature = p.1)
    (hsort : sig.Pairwise (· < ·))
    (hedge : EdgeOkP st1)
    (hstep : connectStep sig id st1 f = some st2) :
    EdgeOkP st2 ∧ st2.archetypes.length = st1.archetypes.length ∧
      (∀ j, (st2.archetypes.getD j dummyArch).signature =
        (st1.archetypes.getD j dummyArch).signature) ∧
      st2.signatureIndex = st1.signatureIndex := by
  unfold connectStep at hstep
  cases halg : alGet st1.signatureIndex (sigWithout sig f) with
  | none =>
    rw [halg] at hstep
    injection hstep with hstep
    subst hstep
    exact ⟨hedge, rfl, fun j => rfl, rfl⟩
  | some other =>
    rw [halg] at hstep
    have hsxp := hsx _ (alGet_mem halg)
    have holen : other < st1.archetypes.length := hsxp.1
    have hosig : (st1.archetypes.getD other dummyArch).signature = sigWithout sig f := hsxp.2
    have hne : other ≠ id := by
      intro hcon
      subst hcon
      rw [hsig] at hosig
      have hfnm : f ∉ sigWithout sig f := fun hm => ((mem_sigWithout hsort).mp hm).2 rfl
      rw [← hosig] at hfnm
      exact hfnm hf
    have ha1 : st1.archetypes[id]? = some (st1.archetypes.getD id dummyArch) := by
      rw [List.getElem?_eq_getElem hid, List.getD_eq_getElem _ _ hid]
    have ha2 : ∀ x : ArchetypeM, (st1.archetypes.set id x)[other]? =
        some (st1.archetypes.getD other dummyArch) := by
      intro x
      rw [List.getElem?_set_ne (fun hcon => hne hcon.symm)]
      rw [List.getElem?_eq_getElem holen, List.getD_eq_getElem _ _ holen]
    rw [ha1] at hstep
    simp only [Option.bind_eq_bind, Option.some_bind] at hstep
    rw [ha2] at hstep
    simp only [Option.some_bind] at hstep
    injection hstep with hstep
    subst hstep
    have hlen2 : ∀ x y : ArchetypeM,
        ((st1.archetypes.set id x).set other y).length = st1.archetypes.length := by
      intro x y
      rw [List.length_set, List.length_set]
    have hsigpres : ∀ (ed1 ed2 : List (Nat × EdgeM)) (j : Nat),
        (((st1.archetypes.set id (withEdges (st1.archetypes.getD id dummyArch) ed1)).set other
          (withEdges (st1.archetypes.getD other dummyArch) ed2)).getD j dummyArch).signature =
        (st1.archetypes.getD j dummyArch).signature := by
      intro ed1 ed2 j
      rw [getD_set, getD_set]
      by_cases hoj : other = j
      · subst hoj
        rw [if_pos ⟨rfl, by rw [List.length_set]; exact holen⟩]
        rfl
      · rw [if_neg (fun hc => hoj hc.1)]
        by_cases hij : id = j
        · subst hij
          rw [if_pos ⟨rfl, hid⟩]
          rfl
        · rw [if_neg (fun hc => hij hc.1)]
    refine ⟨?_, hlen2 _ _, hsigpres _ _, rfl⟩
    intro a ha p hp
    rcases List.mem_or_eq_of_mem_set ha with ha3 | rfl
    · rcases List.mem_or_eq_of_mem_set ha3 with haold | rfl
      · obtain ⟨c1, c2⟩ := hedge a haold p hp
        constructor
        · intro b hb
          obtain ⟨d1, d2⟩ := c1 b hb
          exact ⟨by rw [hlen2]; exact d1, by rw [hsigpres]; exact d2⟩
        · intro b hb
          obtain ⟨d1, d2⟩ := c2 b hb
          exact ⟨by rw [hlen2]; exact d1, by rw [hsigpres]; exact d2⟩
      · rcases alUpdate_mem hp with hpold | ⟨hpf, hpval⟩
        · obtain ⟨c1, c2⟩ := hedge _ (getD_mem_of_lt hid) p hpold
          constructor
          · intro b hb
            obtain ⟨d1, d2⟩ := c1 b hb
            refine ⟨by rw [hlen2]; exact d1, ?_⟩
            rw [hsigpres]
            simp only [withEdges_signature]
            exact d2
          · intro b hb
            obtain ⟨d1, d2⟩ := c2 b hb
            refine ⟨by rw [hlen2]; exact d1, ?_⟩
            rw [hsigpres]
            simp only [withEdges_signature]
            exact d2
        · constructor
          · intro b hb
            rcases hpval with hv | ⟨w, hw, hv⟩
            · rw [hv] at hb
              exact absurd hb (by simp)
            · rw [hv] at hb
              obtain ⟨c1, _⟩ := hedge _ (getD_mem_of_lt hid) (f, w) hw
              obtain ⟨d1, d2⟩ := c1 b hb
              refine ⟨by rw [hlen2]; exact d1, ?_⟩
              rw [hsigpres]
              simp only [withEdges_signature]
              rw [hpf]
              exact d2
          · intro b hb
            have hbo : b = other := by
              rcases hpval with hv | ⟨w, hw, hv⟩ <;> rw [hv] at hb <;>
                exact (Option.some_inj.mp hb).symm
            subst hbo
            refine ⟨by rw [hlen2]; exact holen, ?_⟩
            rw [hsigpres]
            simp only [withEdges_signature]
            rw [hpf, hosig, hsig]
    · rcases alUpdate_mem hp with hpold | ⟨hpf, hpval⟩
      · obtain ⟨c1, c2⟩ := hedge _ (getD_mem_of_lt holen) p hpold
        constructor
        · intro b hb
          obtain ⟨d1, d2⟩ := c1 b hb
          refine ⟨by rw [hlen2]; exact d1, ?_⟩
          rw [hsigpres]
          simp only [withEdges_signature]
          exact d2
        · intro b hb
          obtain ⟨d1, d2⟩ := c2 b hb
          refine ⟨by rw [hlen2]; exact d1, ?_⟩
          rw [hsigpres]
          simp only [withEdges_signature]
          exact d2
      · constructor
        · intro b hb
          have hbi : b = id := by
            rcases hpval with hv | ⟨w, hw, hv⟩ <;> rw [hv] at hb <;>
              exact (Option.some_inj.mp hb).symm
          subst hbi
          refine ⟨by rw [hlen2]; exact hid, ?_⟩
          rw [hsigpres]
          simp only [withEdges_signature]
          rw [hpf, hosig, hsig]
          exact (sigWith_sigWithout_cancel hsort hf).symm
        · intro b hb
          rcases hpval with hv | ⟨w, hw, hv⟩
          · rw [hv] at hb
            exact absurd hb (by simp)
          · rw [hv] at hb
            obtain ⟨_, c2⟩ := hedge _ (getD_mem_of_lt holen) (f, w) hw
            obtain ⟨d1, d2⟩ := c2 b hb
            refine ⟨by rw [hlen2]; exact d1, ?_⟩
            rw [hsigpres]
            simp only [withEdges_signature]
            rw [hpf]
            exact d2


/-- The connect_edges fold over any subset of the signature fields preserves edge
consistency. -/
theorem connectFold_edgeOk {sig : List Nat} {id : Nat} :
    ∀ (fields : List Nat) (st1 st2 : CoreM),
      (∀ f ∈ fields, f ∈ sig) →
      (st1.archetypes.getD id dummyArch).signature = sig →
      id < st1.archetypes.length →
      (∀ p ∈ st1.signatureIndex, p.2 < st1.archetypes.length ∧
        (st1.archetypes.getD p.2 dummyArch).signature = p.1) →
      sig.Pairwise (· < ·) →
      EdgeOkP st1 →
      List.foldlM (connectStep sig id) st1 fields = some st2 →
      EdgeOkP st2
  | [], st1, st2, _, _, _, _, _, he, hfold => by
      rw [List.foldlM_nil] at hfold
      injection hfold with hfold
      subst hfold
      exact he
  | f :: rest, st1, st2, hmem, hsg, hid, hsx, hsort, he, hfold => by
      rw [List.foldlM_cons] at hfold
      cases hstep : connectStep sig id st1 f with
      | none =>
          rw [hstep] at hfold
          simp at hfold
      | some stm =>
          rw [hstep] at hfold
          simp only [Option.bind_eq_bind, Option.some_bind] at hfold
          obtain ⟨he2, hlen, hsigp, hsidx⟩ :=
            connectStep_edgeOk (hmem f (List.mem_cons_self f rest)) hsg hid hsx hsort he hstep
          refine connectFold_edgeOk rest stm st2
            (fun g hg => hmem g (List.mem_cons_of_mem f hg)) ?_ ?_ ?_ hsort he2 hfold
          · rw [hsigp]
            exact hsg
          · rw [hlen]
            exact hid
          · intro p hp
            rw [hsidx] at hp
            obtain ⟨q1, q2⟩ := hsx p hp
            exact ⟨by rw [hlen]; exact q1, by rw [hsigp]; exact q2⟩

theorem getD_concat_self {α : Type} (l : List α) (x d : α) : (l ++ [x]).getD l.length d = x := by
  rw [List.getD_eq_getElem?_getD, List.getElem?_concat_length]
  rfl

/-- Core::create_archetype preserves edge consistency, given a coherent signature
index and a sorted requested signature. -/
theorem createArchetype_edgeOkP {infos : Nat → Option ComponentInfoM} {st st2 : CoreM}
    {sig : List Nat} {id : Nat}
    (hsx : ∀ p ∈ st.signatureIndex, p.2 < st.archetypes.length ∧
      (st.archetypes.getD p.2 dummyArch).signature = p.1)
    (hsort : sig.Pairwise (· < ·))
    (hedge : EdgeOkP st)
    (hca : createArchetype infos st sig = some (st2, id)) :
    EdgeOkP st2 := by
  unfold createArchetype at hca
  cases halg : alGet st.signatureIndex sig with
  | some idx =>
      rw [halg] at hca
      injection hca with hca
      have hst : st2 = st := ((Prod.ext_iff.mp hca).1).symm
      rw [hst]
      exact hedge
  | none =>
      rw [halg] at hca
      cases hcols : sig.mapM (fun f => (infos f).map Column.new) with
      | none =>
          rw [hcols] at hca
          simp at hca
      | some cols =>
          rw [hcols] at hca
          simp only [Option.bind_eq_bind, Option.some_bind] at hca
          cases hce : connectEdges (createArchetypeFresh st sig cols) sig
              st.archetypes.length with
          | none =>
              rw [hce] at hca
              simp at hca
          | some stm =>
              rw [hce] at hca
              simp only [Option.some_bind] at hca
              injection hca with hca
              have hst : st2 = stm := ((Prod.ext_iff.mp hca).1).symm
              subst hst
              have hlenf : (createArchetypeFresh st sig cols).archetypes.length =
                  st.archetypes.length + 1 := by
                unfold createArchetypeFresh
                simp
              refine connectFold_edgeOk sig (createArchetypeFresh st sig cols) st2
                (fun g hg => hg) ?_ ?_ ?_ hsort ?_ hce
              · show ((st.archetypes ++
                  [({ signature := sig, entities := [], columns := cols, edges := [] } : ArchetypeM)]).getD
                    st.archetypes.length dummyArch).signature = sig
                rw [getD_concat_self]
              · rw [hlenf]
                omega
              · intro p hp
                rcases alInsert_mem hp with rfl | hpold
                · refine ⟨by rw [hlenf]; omega, ?_⟩
                  show ((st.archetypes ++
                    [({ signature := sig, entities := [], columns := cols, edges := [] } : ArchetypeM)]).getD
                      st.archetypes.length dummyArch).signature = sig
                  rw [getD_concat_self]
                · obtain ⟨q1, q2⟩ := hsx p hpold
                  refine ⟨by rw [hlenf]; omega, ?_⟩
                  show ((st.archetypes ++
                    [({ signature := sig, entities := [], columns := cols, edges := [] } : ArchetypeM)]).getD
                      p.2 dummyArch).signature = p.1
                  rw [List.getD_append _ _ _ _ q1]
                  exact q2
              · intro a ha p hp
                have hmem : a ∈ st.archetypes ∨
                    a = { signature := sig, entities := [], columns := cols, edges := [] } := by
                  have hm2 : a ∈ st.archetypes ++
                      [{ signature := sig, entities := [], columns := cols, edges := [] }] := ha
                  rcases List.mem_append.mp hm2 with h1 | h2
                  · exact Or.inl h1
                  · exact Or.inr (List.mem_singleton.mp h2)
                rcases hmem with haold | rfl
                · obtain ⟨c1, c2⟩ := hedge a haold p hp
                  constructor
                  · intro b hb
                    obtain ⟨d1, d2⟩ := c1 b hb
                    refine ⟨by rw [hlenf]; omega, ?_⟩
                    show ((st.archetypes ++
                      [({ signature := sig, entities := [], columns := cols, edges := [] } : ArchetypeM)]).getD
                        b dummyArch).signature = sigWith a.signature p.1
                    rw [List.getD_append _ _ _ _ d1]
                    exact d2
                  · intro b hb
                    obtain ⟨d1, d2⟩ := c2 b hb
                    refine ⟨by rw [hlenf]; omega, ?_⟩
                    show ((st.archetypes ++
                      [({ signature := sig, entities := [], columns := cols, edges := [] } : ArchetypeM)]).getD
                        b dummyArch).signature = sigWithout a.signature p.1
                    rw [List.getD_append _ _ _ _ d1]
                    exact d2
                · exact absurd hp (List.not_mem_nil p)

theorem edgeOkB_iff (st : CoreM) : edgeOkB st = true ↔ EdgeOkP st := by
  unfold edgeOkB EdgeOkP
  rw [List.all_eq_true]
  refine forall_congr' (fun a => imp_congr Iff.rfl ?_)
  rw [List.all_eq_true]
  refine forall_congr' (fun p => imp_congr Iff.rfl ?_)
  rw [Bool.and_eq_true]
  refine and_congr ?_ ?_
  · cases hadd : p.2.add with
    | none => simp
    | some b => simp [Bool.and_eq_true]
  · cases hrem : p.2.remove with
    | none => simp
    | some b => simp [Bool.and_eq_true]

theorem sigOkB_spec {st : CoreM} (h : sigOkB st = true) :
    (∀ p ∈ st.signatureIndex, p.2 < st.archetypes.length ∧
      (st.archetypes.getD p.2 dummyArch).signature = p.1) ∧
    (∀ id, id < st.archetypes.length →
      alGet st.signatureIndex (st.archetypes.getD id dummyArch).signature = some id) := by
  unfold sigOkB at h
  rw [Bool.and_eq_true, List.all_eq_true, List.all_eq_true] at h
  constructor
  · intro p hp
    have h2 := h.1 p hp
    rw [Bool.and_eq_true, decide_eq_true_iff, beq_iff_eq] at h2
    exact h2
  · intro id hid
    have h2 := h.2 id (List.mem_range.mpr hid)
    rwa [beq_iff_eq] at h2

theorem sigWith_nil (c : Nat) : sigWith [] c = [c] := by
  have h : binarySearch [] c = .error 0 := rfl
  rw [sigWith_eq_of_err h]
  rfl

theorem binarySearch_singleton_self (c : Nat) : binarySearch [c] c = .ok 0 := by
  unfold binarySearch bsLoop bsLoopF bsFinish
  simp

theorem sigWithout_singleton (c : Nat) : sigWithout [c] c = [] := by
  rw [sigWithout_eq_of_ok (binarySearch_singleton_self c)]
  rfl

theorem sigNew_singleton (c : Nat) : sigNew [c] = [c] := by
  unfold sigNew
  rw [List.mergeSort_singleton]
  rfl

/-- Core::new builds an edge-consistent graph: the empty archetype's add edge for the
ComponentInfo field reaches the ComponentInfo archetype and vice versa via remove. -/
theorem coreNew_edgeOkP (n c : Nat) (ci : ComponentInfoM) : EdgeOkP (coreNew n c ci) := by
  intro a ha p hp
  have hmem : a ∈ (coreNew n c ci).archetypes := ha
  unfold coreNew at hmem
  simp only [List.mem_cons, List.not_mem_nil, or_false] at hmem
  rcases hmem with rfl | rfl
  · rcases List.mem_singleton.mp hp with rfl
    constructor
    · intro b hb
      have hb1 : b = 1 := (Option.some_inj.mp hb).symm
      subst hb1
      refine ⟨by show (1 : Nat) < 2; omega, ?_⟩
      show sigNew [c] = sigWith [] c
      rw [sigNew_singleton, sigWith_nil]
    · intro b hb
      exact absurd hb (by simp)
  · rcases List.mem_singleton.mp hp with rfl
    constructor
    · intro b hb
      exact absurd hb (by simp)
    · intro b hb
      have hb0 : b = 0 := (Option.some_inj.mp hb).symm
      subst hb0
      refine ⟨by show (0 : Nat) < 2; omega, ?_⟩
      show ([] : List Nat) = sigWithout (sigNew [c]) c
      rw [sigNew_singleton, sigWithout_singleton]

/-- Claim C7: edge consistency is an invariant of the archetype graph: it holds of the
freshly constructed Core, and it is preserved by every create_archetype performed on a
state whose signature index is coherent, for any sorted requested signature. -/
theorem c7_edge_consistency :
    (∀ n c ci, edgeOkB (coreNew n c ci) = true) ∧
    (∀ infos st sig st2 id, sigOkB st = true → edgeOkB st = true →
      sig.Pairwise (· < ·) →
      createArchetype infos st sig = some (st2, id) → edgeOkB st2 = true) := by
  constructor
  · intro n c ci
    exact (edgeOkB_iff _).mpr (coreNew_edgeOkP n c ci)
  · intro infos st sig st2 id hs he hsort hca
    exact (edgeOkB_iff _).mpr
      (createArchetype_edgeOkP ((sigOkB_spec hs).1) hsort ((edgeOkB_iff st).mp he) hca)

/-- Witness for C7: the initial world, and creating the field-5 archetype from the
one-entity world, both check edge-consistent. -/
theorem c7_witness :
    edgeOkB (coreNew 0 5 info5) = true ∧
    (createArchetype infosF stOne [5]).map (fun p => edgeOkB p.1) = some true := by
  refine ⟨c7_edge_consistency.1 0 5 info5, ?_⟩
  cases hca : createArchetype infosF stOne [5] with
  | none => exact absurd hca (by decide)
  | some p =>
    have h2 := c7_edge_consistency.2 infosF stOne [5] p.1 p.2 (by decide) (by decide)
      (by decide) (by rw [hca])
    simp [h2]

theorem getD_of_getElemQ_some {A : Type} {l : List A} {i : Nat} {a : A} (d : A)
    (h : l[i]? = some a) : l.getD i d = a := by
  rw [List.getD_eq_getElem?_getD, h]
  rfl

theorem swapRemove_eq_some {A : Type} {l : List A} {i : Nat} {x : A} {l2 : List A}
    (h : swapRemove l i = some (x, l2)) :
    l[i]? = some x ∧ ∃ last, l.getLast? = some last ∧ l2 = (l.set i last).dropLast := by
  unfold swapRemove at h
  cases hg : l[i]? with
  | none => rw [hg] at h; exact absurd h (by simp)
  | some y =>
      rw [hg] at h
      cases hl : l.getLast? with
      | none => rw [hl] at h; exact absurd h (by simp)
      | some last =>
          rw [hl] at h
          injection h with h
          rw [Prod.mk.injEq] at h
          obtain ⟨rfl, h2⟩ := h
          exact ⟨rfl, last, rfl, h2.symm⟩

theorem getD_set_comp {A B : Type} (g : A → B) {l : List A} {i : Nat} {x d : A}
    (hx : g x = g (l.getD i d)) (j : Nat) :
    g ((l.set i x).getD j d) = g (l.getD j d) := by
  rw [getD_set]
  by_cases hc : i = j ∧ i < l.length
  · rw [if_pos hc, hx, hc.1]
  · rw [if_neg hc]

theorem set_set_field {B : Type} (g : ArchetypeM → B) {l : List ArchetypeM} {i1 i2 : Nat}
    {x y : ArchetypeM}
    (hx : g x = g (l.getD i1 dummyArch))
    (hy : g y = g ((l.set i1 x).getD i2 dummyArch)) (j : Nat) :
    g (((l.set i1 x).set i2 y).getD j dummyArch) = g (l.getD j dummyArch) := by
  rw [getD_set_comp g hy j, getD_set_comp g hx j]

theorem withEdges_entities (a : ArchetypeM) (ed : List (Nat × EdgeM)) :
    (withEdges a ed).entities = a.entities := rfl

theorem slot_setVal_spec {T : Type} {m m2 : SlotMap T} {k : Key} {v : T}
    (h : m.setVal k v = some m2) :
    m2.slots[k.index]? = some ⟨k.generation, some v⟩ ∧
      (∀ j, j ≠ k.index → m2.slots[j]? = m.slots[j]?) := by
  unfold SlotMap.setVal at h
  cases hs : m.slots[k.index]? with
  | none => rw [hs] at h; exact absurd h (by simp)
  | some s =>
      rw [hs] at h
      simp only at h
      by_cases hc : s.generation = k.generation ∧ s.data.isSome = true
      · rw [if_pos hc] at h
        injection h with h
        subst h
        have hlen : k.index < m.slots.length := (List.getElem?_eq_some.mp hs).1
        constructor
        · rw [List.getElem?_set, if_pos rfl, if_pos hlen, hc.1]
        · intro j hj
          rw [List.getElem?_set, if_neg (fun hc2 => hj hc2.symm)]
      · rw [if_neg hc] at h
        exact absurd h (by simp)

theorem slot_modifyVal_spec {T : Type} {m m2 : SlotMap T} {k : Key} {f : T → T}
    (h : m.modifyVal k f = some m2) :
    (∃ v, m.slots[k.index]? = some ⟨k.generation, some v⟩ ∧
      m2.slots[k.index]? = some ⟨k.generation, some (f v)⟩) ∧
      (∀ j, j ≠ k.index → m2.slots[j]? = m.slots[j]?) := by
  unfold SlotMap.modifyVal at h
  cases hs : m.slots[k.index]? with
  | none => rw [hs] at h; exact absurd h (by simp)
  | some s =>
      rw [hs] at h
      simp only at h
      by_cases hg : s.generation = k.generation
      · rw [if_pos hg] at h
        cases hd : s.data with
        | none => rw [hd] at h; exact absurd h (by simp)
        | some v =>
            rw [hd] at h
            simp only at h
            injection h with h
            subst h
            have hlen : k.index < m.slots.length := (List.getElem?_eq_some.mp hs).1
            refine ⟨⟨v, ?_, ?_⟩, ?_⟩
            · rw [← hg, ← hd]
            · rw [List.getElem?_set, if_pos rfl, if_pos hlen, hg]
            · intro j hj
              rw [List.getElem?_set, if_neg (fun hc2 => hj hc2.symm)]
      · rw [if_neg hg] at h
        exact absurd h (by simp)

theorem SlotMap_insert_get {T : Type} {m m2 : SlotMap T} {v : T} {k : Key}
    (h : m.insert v = some (m2, k)) : m2.get k = some v := by
  unfold SlotMap.insert at h
  cases hl : m.available.getLast? with
  | some idx =>
      rw [hl] at h
      simp only at h
      cases hs : m.slots[idx]? with
      | none => rw [hs] at h; exact absurd h (by simp)
      | some s =>
          rw [hs] at h
          simp only at h
          injection h with h
          rw [Prod.mk.injEq] at h
          obtain ⟨h1, h2⟩ := h
          subst h1
          subst h2
          have hlen : idx < m.slots.length := (List.getElem?_eq_some.mp hs).1
          unfold SlotMap.get
          simp only
          rw [List.getElem?_set, if_pos rfl, if_pos hlen]
          simp
  | none =>
      rw [hl] at h
      simp only at h
      by_cases hfull : m.slots.length = U32MAX
      · rw [if_pos hfull] at h
        exact absurd h (by simp)
      · rw [if_neg hfull] at h
        injection h with h
        rw [Prod.mk.injEq] at h
        obtain ⟨h1, h2⟩ := h
        subst h1
        subst h2
        unfold SlotMap.get
        simp only
        rw [List.getElem?_concat_length]
        simp

theorem SlotMap_remove_fst_none {T : Type} {m : SlotMap T} {k : Key}
    (h : (m.remove k).1 = none) : m.get k = none := by
  unfold SlotMap.remove at h
  unfold SlotMap.get
  cases hs : m.slots[k.index]? with
  | none => rfl
  | some s =>
      rw [hs] at h
      simp only at h
      simp only
      by_cases hg : s.generation = k.generation
      · rw [if_pos hg] at h
        rw [if_pos hg]
        cases hd : s.data with
        | none => rfl
        | some v =>
            rw [hd] at h
            simp only at h
            exact absurd h (by simp)
      · rw [if_neg hg]

theorem SlotMap_remove_snd_get {T : Type} (m : SlotMap T) (k : Key) :
    ((m.remove k).2).get k = none := by
  unfold SlotMap.remove
  cases hs : m.slots[k.index]? with
  | none =>
      simp only
      unfold SlotMap.get
      rw [hs]
  | some s =>
      simp only
      by_cases hg : s.generation = k.generation
      · rw [if_pos hg]
        cases hd : s.data with
        | none =>
            simp only
            unfold SlotMap.get
            rw [hs]
            simp only
            rw [if_pos hg]
            exact hd
        | some v =>
            simp only
            unfold SlotMap.get
            simp only
            have hlen : k.index < m.slots.length := (List.getElem?_eq_some.mp hs).1
            rw [List.getElem?_set, if_pos rfl, if_pos hlen]
            simp [hg]
      · rw [if_neg hg]
        simp only
        unfold SlotMap.get
        rw [hs]
        simp only
        rw [if_neg hg]

theorem moveEntity_spec {st : CoreM} {old : EntityLoc} {dest : Nat} {st2 : CoreM}
    {loc : EntityLoc} {e : Key}
    (hget : st.entityIndex.get e = some old)
    (hent : (st.archetypes.getD old.archetype dummyArch).entities[old.row]? = some e)
    (hdir2 : ∀ j, j < (st.archetypes.getD old.archetype dummyArch).entities.length →
      st.entityIndex.get
        ((st.archetypes.getD old.archetype dummyArch).entities.getD j Key.null) =
        some ⟨old.archetype, j⟩)
    (hmv : moveEntity st old dest = some (st2, loc)) :
    st2.entityIndex.get e = some loc ∧ loc.archetype = dest ∧
      st2.fieldIndex = st.fieldIndex ∧ st2.signatureIndex = st.signatureIndex ∧
      st2.archetypes.length = st.archetypes.length ∧
      (∀ j, (st2.archetypes.getD j dummyArch).signature =
        (st.archetypes.getD j dummyArch).signature) := by
  unfold moveEntity at hmv
  by_cases hsame : old.archetype = dest
  · rw [if_pos hsame] at hmv
    injection hmv with hmv
    rw [Prod.mk.injEq] at hmv
    obtain ⟨h1, h2⟩ := hmv
    subst h1
    subst h2
    exact ⟨hget, hsame, rfl, rfl, rfl, fun j => rfl⟩
  · rw [if_neg hsame] at hmv
    simp only [Option.bind_eq_bind] at hmv
    rw [Option.bind_eq_some] at hmv
    obtain ⟨oldA, hoa, hmv⟩ := hmv
    rw [Option.bind_eq_some] at hmv
    obtain ⟨newA, hna, hmv⟩ := hmv
    rw [Option.bind_eq_some] at hmv
    obtain ⟨⟨entity, oldEnts⟩, hsw, hmv⟩ := hmv
    rw [Option.bind_eq_some] at hmv
    obtain ⟨⟨oldCols, newCols⟩, hmc, hmv⟩ := hmv
    rw [Option.bind_eq_some] at hmv
    obtain ⟨idx1, hsv, hmv⟩ := hmv
    simp only at hsv hmv
    have hoaD : st.archetypes.getD old.archetype dummyArch = oldA :=
      getD_of_getElemQ_some dummyArch hoa
    obtain ⟨hentx, last, hlast, hoe⟩ := swapRemove_eq_some hsw
    rw [hoaD] at hent hdir2
    have hee : e = entity := by
      rw [hent] at hentx
      exact Option.some_inj.mp hentx
    subst hee
    have hrowlt : old.row < oldA.entities.length := (List.getElem?_eq_some.mp hent).1
    obtain ⟨hs1, hs2⟩ := slot_setVal_spec hsv
    have hg1 : idx1.get e =
        some ⟨dest, (newA.entities ++ [e]).length - 1⟩ := by
      unfold SlotMap.get
      rw [hs1]
      simp
    have hsigs : ∀ j (ents : List Key) (cols1 cols2 : List Column),
        ((((st.archetypes.set old.archetype
            { signature := oldA.signature, entities := ents, columns := cols1,
              edges := oldA.edges }).set dest
            { signature := newA.signature, entities := newA.entities ++ [e],
              columns := cols2, edges := newA.edges }).getD j dummyArch).signature) =
          (st.archetypes.getD j dummyArch).signature := by
      intro j ents cols1 cols2
      exact set_set_field ArchetypeM.signature (by rw [hoaD])
        (by rw [getD_set, if_neg (fun hc => hsame hc.1),
          getD_of_getElemQ_some dummyArch hna]) j
    by_cases hfc : old.row < oldEnts.length
    · rw [if_pos hfc] at hmv
      rw [Option.bind_eq_some] at hmv
      obtain ⟨disp, hdisp, hmv⟩ := hmv
      rw [Option.bind_eq_some] at hmv
      obtain ⟨idx2, hfix, hmv⟩ := hmv
      injection hmv with hmv
      rw [Prod.mk.injEq] at hmv
      obtain ⟨h1, h2⟩ := hmv
      subst h1
      subst h2
      have hoel : oldEnts.length = oldA.entities.length - 1 := by
        rw [hoe, List.length_dropLast, List.length_set]
      have hrl2 : old.row < oldA.entities.length - 1 := by
        rw [← hoel]
        exact hfc
      have hdispval : last = disp := by
        rw [hoe, List.getElem?_dropLast, List.length_set,
          if_pos hrl2, List.getElem?_set, if_pos rfl, if_pos hrowlt] at hdisp
        exact Option.some_inj.mp hdisp
      subst hdispval
      have hlastval : oldA.entities[oldA.entities.length - 1]? = some last := by
        rw [← List.getLast?_eq_getElem?]
        exact hlast
      have hd2l := hdir2 (oldA.entities.length - 1) (by omega)
      rw [getD_of_getElemQ_some Key.null hlastval] at hd2l
      have hne2 : e ≠ last := by
        intro heq
        rw [← heq, hget] at hd2l
        have h3 := Option.some_inj.mp hd2l
        have h4 : old.row = oldA.entities.length - 1 := congrArg EntityLoc.row h3
        omega
      obtain ⟨⟨v, hmv1, hmv2⟩, hmo⟩ := slot_modifyVal_spec hfix
      have hine : last.index ≠ e.index := by
        intro hidx
        rw [hidx, hs1] at hmv1
        injection hmv1 with hmv1
        rw [Slot.mk.injEq] at hmv1
        apply hne2
        obtain ⟨i1, g1⟩ := e
        obtain ⟨i2, g2⟩ := last
        simp only at hidx hmv1
        rw [Key.mk.injEq]
        exact ⟨hidx.symm, hmv1.1⟩
      have hg2 : idx2.get e =
          some ⟨dest, (newA.entities ++ [e]).length - 1⟩ := by
        unfold SlotMap.get
        rw [hmo e.index (fun hc => hine hc.symm), hs1]
        simp
      refine ⟨hg2, rfl, rfl, rfl, by simp only [List.length_set], ?_⟩
      intro j
      exact hsigs j _ _ _
    · rw [if_neg hfc] at hmv
      rw [Option.bind_eq_some] at hmv
      obtain ⟨idx2, hfix, hmv⟩ := hmv
      injection hmv with hmv
      rw [Prod.mk.injEq] at hmv
      obtain ⟨h1, h2⟩ := hmv
      subst h1
      subst h2
      have hi12 : idx1 = idx2 := Option.some_inj.mp hfix
      subst hi12
      refine ⟨hg1, rfl, rfl, rfl, by simp only [List.length_set], ?_⟩
      intro j
      exact hsigs j _ _ _


theorem connectStep_frame {sig : List Nat} {id f : Nat} {st1 st2 : CoreM}
    (hstep : connectStep sig id st1 f = some st2) :
    st2.entityIndex = st1.entityIndex ∧ st2.fieldIndex = st1.fieldIndex ∧
      st2.archetypes.length = st1.archetypes.length ∧
      (∀ j, (st2.archetypes.getD j dummyArch).signature =
          (st1.archetypes.getD j dummyArch).signature ∧
        (st2.archetypes.getD j dummyArch).entities =
          (st1.archetypes.getD j dummyArch).entities) := by
  unfold connectStep at hstep
  cases halg : alGet st1.signatureIndex (sigWithout sig f) with
  | none =>
      rw [halg] at hstep
      injection hstep with hstep
      subst hstep
      exact ⟨rfl, rfl, rfl, fun j => ⟨rfl, rfl⟩⟩
  | some other =>
      rw [halg] at hstep
      simp only [Option.bind_eq_bind] at hstep
      rw [Option.bind_eq_some] at hstep
      obtain ⟨a1, ha1, hstep⟩ := hstep
      rw [Option.bind_eq_some] at hstep
      obtain ⟨a2, ha2, hstep⟩ := hstep
      injection hstep with hstep
      subst hstep
      have ha1D : st1.archetypes.getD id dummyArch = a1 :=
        getD_of_getElemQ_some dummyArch ha1
      have ha2D := getD_of_getElemQ_some dummyArch ha2
      refine ⟨rfl, rfl, by simp only [List.length_set], fun j => ⟨?_, ?_⟩⟩
      · exact set_set_field ArchetypeM.signature
          (by rw [withEdges_signature, ha1D]) (by rw [withEdges_signature, ha2D]) j
      · exact set_set_field ArchetypeM.entities
          (by rw [withEdges_entities, ha1D]) (by rw [withEdges_entities, ha2D]) j

theorem connectFold_frame {sig : List Nat} {id : Nat} :
    ∀ (fields : List Nat) (st1 st2 : CoreM),
      List.foldlM (connectStep sig id) st1 fields = some st2 →
      st2.entityIndex = st1.entityIndex ∧ st2.fieldIndex = st1.fieldIndex ∧
        st2.archetypes.length = st1.archetypes.length ∧
        (∀ j, (st2.archetypes.getD j dummyArch).signature =
            (st1.archetypes.getD j dummyArch).signature ∧
          (st2.archetypes.getD j dummyArch).entities =
            (st1.archetypes.getD j dummyArch).entities)
  | [], st1, st2, hfold => by
      rw [List.foldlM_nil] at hfold
      injection hfold with hfold
      subst hfold
      exact ⟨rfl, rfl, rfl, fun j => ⟨rfl, rfl⟩⟩
  | f :: rest, st1, st2, hfold => by
      rw [List.foldlM_cons] at hfold
      cases hstep : connectStep sig id st1 f with
      | none =>
          rw [hstep] at hfold
          simp at hfold
      | some stm =>
          rw [hstep] at hfold
          simp only [Option.bind_eq_bind, Option.some_bind] at hfold
          obtain ⟨e1, f1, l1, s1⟩ := connectStep_frame hstep
          obtain ⟨e2, f2, l2, s2⟩ := connectFold_frame rest stm st2 hfold
          exact ⟨e2.trans e1, f2.trans f1, l2.trans l1,
            fun j => ⟨((s2 j).1).trans ((s1 j).1), ((s2 j).2).trans ((s1 j).2)⟩⟩

theorem fieldFold_mem {id : Nat} :
    ∀ (pairs : List (Nat × Nat)) (fi : List (Nat × List (Nat × Nat)))
      (p : Nat × List (Nat × Nat)),
      p ∈ pairs.foldl (fun fi2 q => alUpdate [] (fun m => alInsert m id q.1) fi2 q.2) fi →
      ∀ r ∈ p.2, (r.1 = id ∧ p.1 ∈ pairs.map Prod.snd) ∨ ∃ fl, (p.1, fl) ∈ fi ∧ r ∈ fl
  | [], fi, p, hp, r, hr => by
      rw [List.foldl_nil] at hp
      exact Or.inr ⟨p.2, by rw [Prod.mk.eta]; exact hp, hr⟩
  | q :: rest, fi, p, hp, r, hr => by
      rw [List.foldl_cons] at hp
      rcases fieldFold_mem rest _ p hp r hr with ⟨h1, h2⟩ | ⟨fl, hfl, hrfl⟩
      · exact Or.inl ⟨h1, by rw [List.map_cons]; exact List.mem_cons_of_mem _ h2⟩
      · rcases alUpdate_mem hfl with hold | ⟨hk, hv⟩
        · exact Or.inr ⟨fl, hold, hrfl⟩
        · simp only at hk
          rcases hv with hv | ⟨w, hw, hv⟩
          · simp only at hv
            rw [hv] at hrfl
            unfold alInsert at hrfl
            rcases List.mem_singleton.mp hrfl with rfl
            exact Or.inl ⟨rfl, by rw [List.map_cons, hk]; exact List.mem_cons_self _ _⟩
          · simp only at hv
            rw [hv] at hrfl
            rcases alInsert_mem hrfl with rfl | hrw
            · exact Or.inl ⟨rfl, by rw [List.map_cons, hk]; exact List.mem_cons_self _ _⟩
            · exact Or.inr ⟨w, by rw [hk]; exact hw, hrw⟩

theorem fieldOkB_spec {st : CoreM} (h : fieldOkB st = true) : FieldOkP st := by
  unfold fieldOkB at h
  rw [List.all_eq_true] at h
  intro p hp q hq
  have h2 := h p hp
  rw [List.all_eq_true] at h2
  have h3 := h2 q hq
  rw [Bool.and_eq_true, decide_eq_true_iff, decide_eq_true_iff] at h3
  exact h3

theorem sortedSigsB_spec {st : CoreM} (h : sortedSigsB st = true) :
    ∀ a ∈ st.archetypes, a.signature.Pairwise (· < ·) := by
  unfold sortedSigsB at h
  rw [List.all_eq_true] at h
  intro a ha
  have h2 := h a ha
  rwa [decide_eq_true_iff] at h2


theorem createArchetype_spec {infos : Nat → Option ComponentInfoM} {st st2 : CoreM}
    {sig : List Nat} {id : Nat}
    (hsx : ∀ p ∈ st.signatureIndex, p.2 < st.archetypes.length ∧
      (st.archetypes.getD p.2 dummyArch).signature = p.1)
    (hfo : FieldOkP st)
    (hca : createArchetype infos st sig = some (st2, id)) :
    (st2.archetypes.getD id dummyArch).signature = sig ∧ FieldOkP st2 ∧
      st2.entityIndex = st.entityIndex ∧
      st.archetypes.length ≤ st2.archetypes.length ∧
      (∀ j, j < st.archetypes.length →
        (st2.archetypes.getD j dummyArch).entities =
          (st.archetypes.getD j dummyArch).entities) := by
  unfold createArchetype at hca
  cases halg : alGet st.signatureIndex sig with
  | some idx =>
      rw [halg] at hca
      injection hca with hca
      rw [Prod.mk.injEq] at hca
      obtain ⟨h1, h2⟩ := hca
      subst h1
      subst h2
      obtain ⟨q1, q2⟩ := hsx _ (alGet_mem halg)
      exact ⟨q2, hfo, rfl, Nat.le_refl _, fun j hj => rfl⟩
  | none =>
      rw [halg] at hca
      simp only [Option.bind_eq_bind] at hca
      rw [Option.bind_eq_some] at hca
      obtain ⟨cols, hcols, hca⟩ := hca
      rw [Option.bind_eq_some] at hca
      obtain ⟨stm, hce, hca⟩ := hca
      injection hca with hca
      rw [Prod.mk.injEq] at hca
      obtain ⟨h1, h2⟩ := hca
      subst h1
      subst h2
      obtain ⟨eF, fF, lF, sF⟩ := connectFold_frame sig _ stm hce
      have hlenf : (createArchetypeFresh st sig cols).archetypes.length =
          st.archetypes.length + 1 := by
        unfold createArchetypeFresh
        simp
      have hfreshsig : ((createArchetypeFresh st sig cols).archetypes.getD
          st.archetypes.length dummyArch).signature = sig := by
        show ((st.archetypes ++
          [({ signature := sig, entities := [], columns := cols,
              edges := [] } : ArchetypeM)]).getD st.archetypes.length dummyArch).signature = sig
        rw [getD_concat_self]
      have hfreshlow : ∀ j, j < st.archetypes.length →
          (createArchetypeFresh st sig cols).archetypes.getD j dummyArch =
            st.archetypes.getD j dummyArch := by
        intro j hj
        show (st.archetypes ++
          [({ signature := sig, entities := [], columns := cols,
              edges := [] } : ArchetypeM)]).getD j dummyArch = st.archetypes.getD j dummyArch
        rw [List.getD_append _ _ _ _ hj]
      refine ⟨?_, ?_, ?_, ?_, ?_⟩
      · rw [(sF st.archetypes.length).1]
        exact hfreshsig
      · intro p hp r hr
        rw [fF] at hp
        have hp2 : p ∈ sig.enum.foldl
            (fun fi2 q => alUpdate [] (fun m => alInsert m st.archetypes.length q.1) fi2 q.2)
            st.fieldIndex := hp
        rcases fieldFold_mem sig.enum st.fieldIndex p hp2 r hr with ⟨hr1, hmem⟩ | ⟨fl, hfl, hrfl⟩
        · rw [List.enum_map_snd] at hmem
          constructor
          · rw [lF, hlenf, hr1]
            omega
          · rw [(sF r.1).1, hr1, hfreshsig]
            exact hmem
        · obtain ⟨q1, q2⟩ := hfo (p.1, fl) hfl r hrfl
          constructor
          · rw [lF, hlenf]
            omega
          · rw [(sF r.1).1, hfreshlow r.1 q1]
            exact q2
      · exact eF
      · rw [lF, hlenf]
        omega
      · intro j hj
        rw [(sF j).2, hfreshlow j hj]


theorem insertBytes_observable {infos : Nat → Option ComponentInfoM} {st : CoreM}
    {info : ComponentInfoM} {bytes : List Nat} {e : Key} {st2 : CoreM} {loc : EntityLoc}
    {cur : EntityLoc}
    (hget : st.entityIndex.get e = some cur)
    (hent : (st.archetypes.getD cur.archetype dummyArch).entities[cur.row]? = some e)
    (hins : insertBytes infos st info bytes e = some (st2, loc)) :
    st2.entityIndex.get e = some loc ∧ archetypeHas st2 info.id loc.archetype = true := by
  unfold insertBytes at hins
  by_cases hsz : info.size = bytes.length
  · rw [if_pos hsz] at hins
    simp only [Option.bind_eq_bind] at hins
    rw [Option.bind_eq_some] at hins
    obtain ⟨current, hcur, hins⟩ := hins
    have hcc : cur = current := by
      rw [hget] at hcur
      exact Option.some_inj.mp hcur
    subst hcc
    rw [Option.bind_eq_some] at hins
    obtain ⟨curA, hca, hins⟩ := hins
    rw [Option.bind_eq_some] at hins
    obtain ⟨entity, hE, hins⟩ := hins
    have hee : e = entity := by
      rw [getD_of_getElemQ_some dummyArch hca] at hent
      rw [hent] at hE
      exact Option.some_inj.mp hE
    subst hee
    have htail : ∀ st1x : CoreM, ∀ destx : Nat,
        ((moveEntity st1x cur destx).bind fun d =>
          (d.1.entityIndex.get e).bind fun updated =>
            (alGet d.1.fieldIndex info.id).bind fun fl =>
              (alGet fl updated.archetype).bind fun colIdx =>
                (d.1.archetypes[destx]?).bind fun destA =>
                  (destA.columns[colIdx]?).bind fun col =>
                    (col.writeInto updated.row bytes).bind fun col2 =>
                      some (({ d.1 with archetypes := d.1.archetypes.set destx { destA with columns := destA.columns.set colIdx col2 } } : CoreM), updated)) = some (st2, loc) →
        st2.entityIndex.get e = some loc ∧
          archetypeHas st2 info.id loc.archetype = true := by
      intro st1x destx htl
      rw [Option.bind_eq_some] at htl
      obtain ⟨⟨st2m, l2⟩, hmvE, htl⟩ := htl
      simp only at htl
      rw [Option.bind_eq_some] at htl
      obtain ⟨updated, hupd, htl⟩ := htl
      rw [Option.bind_eq_some] at htl
      obtain ⟨fl, hfl, htl⟩ := htl
      rw [Option.bind_eq_some] at htl
      obtain ⟨colIdx, hci, htl⟩ := htl
      rw [Option.bind_eq_some] at htl
      obtain ⟨destA, hda, htl⟩ := htl
      rw [Option.bind_eq_some] at htl
      obtain ⟨col, hcol, htl⟩ := htl
      rw [Option.bind_eq_some] at htl
      obtain ⟨col2, hwr, htl⟩ := htl
      injection htl with htl
      rw [Prod.mk.injEq] at htl
      obtain ⟨h1, h2⟩ := htl
      subst h1
      subst h2
      constructor
      · exact hupd
      · unfold archetypeHas
        simp only
        rw [hfl]
        simp only
        rw [hci]
        rfl
    by_cases hctn : sigContains curA.signature info.id = true
    · rw [if_pos hctn] at hins
      rw [Option.some_bind] at hins
      simp only at hins
      exact htail st cur.archetype hins
    · rw [if_neg hctn] at hins
      cases hedge : (alGet curA.edges info.id).bind (fun ed => ed.add) with
      | some edge =>
          rw [hedge] at hins
          simp only at hins
          rw [Option.some_bind] at hins
          simp only at hins
          exact htail st edge hins
      | none =>
          rw [hedge] at hins
          simp only at hins
          rw [Option.bind_eq_some] at hins
          obtain ⟨⟨st1, dest⟩, hcaA, hins⟩ := hins
          simp only at hins
          exact htail st1 dest hins
  · rw [if_neg hsz] at hins
    exact absurd hins (by simp)

theorem despawnE_get {st : CoreM} {e : Key} {st2 : CoreM}
    (h : despawnE st e = some st2) : st2.entityIndex.get e = none := by
  unfold despawnE at h
  cases hrem : st.entityIndex.remove e with
  | mk fst snd =>
      rw [hrem] at h
      cases fst with
      | none =>
          simp only at h
          injection h with h
          subst h
          apply SlotMap_remove_fst_none
          rw [hrem]
      | some v =>
          simp only [Option.bind_eq_bind] at h
          rw [Option.bind_eq_some] at h
          obtain ⟨a, ha, h⟩ := h
          rw [Option.bind_eq_some] at h
          obtain ⟨a2, ha2, h⟩ := h
          injection h with h
          subst h
          have h3 := SlotMap_remove_snd_get st.entityIndex e
          rw [hrem] at h3
          exact h3

theorem initEntity_fresh {st : CoreM} {e : Key} {st2 : CoreM} {loc : EntityLoc}
    (hget : st.entityIndex.get e = some EntityLoc.uninit)
    (h : initEntityLocation st e = some (st2, loc)) :
    loc = ⟨0, (st.archetypes.getD 0 dummyArch).entities.length⟩ ∧
      st2.entityIndex.get e = some loc ∧
      (st2.archetypes.getD 0 dummyArch).entities =
        (st.archetypes.getD 0 dummyArch).entities ++ [e] := by
  unfold initEntityLocation at h
  simp only [Option.bind_eq_bind] at h
  rw [Option.bind_eq_some] at h
  obtain ⟨loc0, hloc0, h⟩ := h
  have hl0 : loc0 = EntityLoc.uninit := by
    rw [hget] at hloc0
    exact (Option.some_inj.mp hloc0).symm
  subst hl0
  rw [if_pos rfl] at h
  rw [Option.bind_eq_some] at h
  obtain ⟨emptyA, hea, h⟩ := h
  rw [Option.bind_eq_some] at h
  obtain ⟨idx, hsv, h⟩ := h
  injection h with h
  rw [Prod.mk.injEq] at h
  obtain ⟨h1, h2⟩ := h
  subst h1
  subst h2
  have h0len : 0 < st.archetypes.length := (List.getElem?_eq_some.mp hea).1
  have heaD : st.archetypes.getD 0 dummyArch = emptyA := getD_of_getElemQ_some dummyArch hea
  obtain ⟨hs1, hs2⟩ := slot_setVal_spec hsv
  refine ⟨by rw [heaD]; rfl, ?_, ?_⟩
  · unfold SlotMap.get
    simp only
    rw [hs1]
    simp
  · simp only
    rw [getD_set, if_pos ⟨rfl, h0len⟩, heaD]

theorem flushW_single {infos : Nat → Option ComponentInfoM} {core : CoreM} {g : Nat}
    {cmd : CommandM} {w2 : WorldM}
    (h : flushW infos ⟨core, [cmd], g⟩ = some w2) :
    ∃ core2, applyCommand infos core cmd = some core2 ∧ w2 = ⟨core2, [], 0⟩ := by
  unfold flushW at h
  simp only [Option.bind_eq_bind] at h
  rw [Option.bind_eq_some] at h
  obtain ⟨g1, hg1, h⟩ := h
  rw [Option.bind_eq_some] at h
  obtain ⟨c2, hc2, h⟩ := h
  rw [Option.bind_eq_some] at h
  obtain ⟨g2, hg2, h⟩ := h
  injection h with h
  subst h
  have hg1v : g1 = USIZEMAX := by
    unfold beginFlush at hg1
    by_cases hg0 : g = 0
    · rw [if_pos hg0] at hg1
      exact (Option.some_inj.mp hg1).symm
    · rw [if_neg hg0] at hg1
      exact absurd hg1 (by simp)
  subst hg1v
  have hg2v : g2 = 0 := by
    unfold endFlush at hg2
    rw [if_pos rfl] at hg2
    exact (Option.some_inj.mp hg2).symm
  subst hg2v
  rw [List.foldlM_cons] at hc2
  simp only [Option.bind_eq_bind] at hc2
  rw [Option.bind_eq_some] at hc2
  obtain ⟨c3, hap, htail⟩ := hc2
  rw [List.foldlM_nil] at htail
  have hc3 : c3 = c2 := Option.some_inj.mp htail
  subst hc3
  exact ⟨c3, hap, rfl⟩


theorem removeField_not_has {infos : Nat → Option ComponentInfoM} {st : CoreM}
    {f : Nat} {e : Key} {st2 : CoreM} {loc : EntityLoc} {cur : EntityLoc}
    (hget : st.entityIndex.get e = some cur)
    (hent : (st.archetypes.getD cur.archetype dummyArch).entities[cur.row]? = some e)
    (hdir2 : ∀ j, j < (st.archetypes.getD cur.archetype dummyArch).entities.length →
      st.entityIndex.get
        ((st.archetypes.getD cur.archetype dummyArch).entities.getD j Key.null) =
        some ⟨cur.archetype, j⟩)
    (hsxB : sigOkB st = true) (hedgeB : edgeOkB st = true) (hfoB : fieldOkB st = true)
    (hsortB : sortedSigsB st = true)
    (hrm : removeField infos st f e = some (st2, loc)) :
    st2.entityIndex.get e = some loc ∧ archetypeHas st2 f loc.archetype = false := by
  have hsx := (sigOkB_spec hsxB).1
  have hedge := (edgeOkB_iff st).mp hedgeB
  have hfo := fieldOkB_spec hfoB
  unfold removeField at hrm
  simp only [Option.bind_eq_bind] at hrm
  rw [Option.bind_eq_some] at hrm
  obtain ⟨current, hcur, hrm⟩ := hrm
  have hcc : cur = current := by
    rw [hget] at hcur
    exact Option.some_inj.mp hcur
  subst hcc
  rw [Option.bind_eq_some] at hrm
  obtain ⟨curA, hca, hrm⟩ := hrm
  have hcaD : st.archetypes.getD cur.archetype dummyArch = curA :=
    getD_of_getElemQ_some dummyArch hca
  have hcalt : cur.archetype < st.archetypes.length := (List.getElem?_eq_some.mp hca).1
  have hsorted : curA.signature.Pairwise (· < ·) :=
    sortedSigsB_spec hsortB curA (by rw [← hcaD]; exact getD_mem_of_lt hcalt)
  have htail : ∀ st1x : CoreM, ∀ destx : Nat,
      st1x.entityIndex = st.entityIndex →
      (st1x.archetypes.getD destx dummyArch).signature = sigWithout curA.signature f →
      FieldOkP st1x →
      (st1x.archetypes.getD cur.archetype dummyArch).entities =
        (st.archetypes.getD cur.archetype dummyArch).entities →
      moveEntity st1x cur destx = some (st2, loc) →
      st2.entityIndex.get e = some loc ∧ archetypeHas st2 f loc.archetype = false := by
    intro st1x destx hei hdsig hfo1 hents1 hmv
    obtain ⟨mg, mla, mfi, msi, mlen, msig⟩ := moveEntity_spec
      (by rw [hei]; exact hget) (by rw [hents1, hcaD]; rw [hcaD] at hent; exact hent)
      (by intro j hj
          rw [hents1] at hj ⊢
          rw [hei]
          exact hdir2 j hj) hmv
    refine ⟨mg, ?_⟩
    rw [mla]
    unfold archetypeHas
    cases hfl : alGet st2.fieldIndex f with
    | none => rfl
    | some fl =>
        simp only
        cases hc : alGet fl destx with
        | none => rfl
        | some colIdx =>
            exfalso
            rw [mfi] at hfl
            obtain ⟨q1, q2⟩ := hfo1 (f, fl) (alGet_mem hfl) (destx, colIdx) (alGet_mem hc)
            rw [hdsig] at q2
            exact ((mem_sigWithout hsorted).mp q2).2 rfl
  cases hedgeL : (alGet curA.edges f).bind (fun ed => ed.remove) with
  | some edge =>
      rw [hedgeL] at hrm
      simp only at hrm
      rw [Option.some_bind] at hrm
      simp only at hrm
      rw [Option.bind_eq_some] at hedgeL
      obtain ⟨ed, hedf, hrm2⟩ := hedgeL
      obtain ⟨_, c2⟩ := hedge curA (by rw [← hcaD]; exact getD_mem_of_lt hcalt) (f, ed)
        (alGet_mem hedf)
      obtain ⟨d1, d2⟩ := c2 edge hrm2
      exact htail st edge rfl d2 hfo rfl hrm
  | none =>
      rw [hedgeL] at hrm
      simp only at hrm
      rw [Option.bind_eq_some] at hrm
      obtain ⟨⟨st1, dest⟩, hcaA, hrm⟩ := hrm
      simp only at hrm
      obtain ⟨hsig1, hfo1, hei1, hle1, hents1⟩ := createArchetype_spec hsx hfo hcaA
      exact htail st1 dest hei1 hsig1 hfo1 (hents1 cur.archetype hcalt) hrm


/-- Claim C6: View::insert, View::remove and View::despawn only append a command to
the queue and leave the Core untouched, and World::spawn allocates only the index
handle, so none of the requested structural changes is observable through has or
get_entity before flush(); once flush() applies the queued command the change is
observable: insert turns has for the component on, remove turns it off (on a Core
with coherent signature, edge and field indices), despawn empties get_entity, and
spawn places the entity at the end of the empty archetype. -/
theorem c6_mutations_deferred_until_flush :
    (∀ w info bytes e, (viewInsert w info bytes e).core = w.core ∧
      (viewInsert w info bytes e).queue = w.queue ++ [.insertC info bytes e]) ∧
    (∀ w f e, (viewRemove w f e).core = w.core ∧
      (viewRemove w f e).queue = w.queue ++ [.removeC f e]) ∧
    (∀ w e, (viewDespawn w e).core = w.core ∧
      (viewDespawn w e).queue = w.queue ++ [.despawnC e]) ∧
    (∀ w info bytes e f e2, viewHas (viewInsert w info bytes e) f e2 = viewHas w f e2) ∧
    (∀ w f e f2 e2, viewHas (viewRemove w f e) f2 e2 = viewHas w f2 e2) ∧
    (∀ w e e2, getEntitySome (viewDespawn w e) e2 = getEntitySome w e2) ∧
    (∀ w w1 k, worldSpawn w = some (w1, k) →
      w1.core.archetypes = w.core.archetypes ∧ w1.queue = w.queue ++ [.spawnC k]) ∧
    (∀ infos w info bytes e cur w2, w.queue = [] →
      w.core.entityIndex.get e = some cur →
      (w.core.archetypes.getD cur.archetype dummyArch).entities[cur.row]? = some e →
      flushW infos (viewInsert w info bytes e) = some w2 →
      viewHas w2 info.id e = true) ∧
    (∀ infos w f e cur w2, w.queue = [] →
      w.core.entityIndex.get e = some cur →
      (w.core.archetypes.getD cur.archetype dummyArch).entities[cur.row]? = some e →
      (∀ j, j < (w.core.archetypes.getD cur.archetype dummyArch).entities.length →
        w.core.entityIndex.get
          ((w.core.archetypes.getD cur.archetype dummyArch).entities.getD j Key.null) =
          some ⟨cur.archetype, j⟩) →
      sigOkB w.core = true → edgeOkB w.core = true → fieldOkB w.core = true →
      sortedSigsB w.core = true →
      flushW infos (viewRemove w f e) = some w2 →
      viewHas w2 f e = false) ∧
    (∀ infos w e w2, w.queue = [] →
      flushW infos (viewDespawn w e) = some w2 →
      getEntitySome w2 e = false) ∧
    (∀ infos w w1 k w2, w.queue = [] →
      worldSpawn w = some (w1, k) → flushW infos w1 = some w2 →
      (w2.core.archetypes.getD 0 dummyArch).entities =
        (w.core.archetypes.getD 0 dummyArch).entities ++ [k] ∧
      w2.core.entityIndex.get k =
        some ⟨0, (w.core.archetypes.getD 0 dummyArch).entities.length⟩ ∧
      getEntitySome w2 k = true) := by
  refine ⟨fun w info bytes e => ⟨rfl, rfl⟩, fun w f e => ⟨rfl, rfl⟩,
    fun w e => ⟨rfl, rfl⟩, fun w info bytes e f e2 => rfl, fun w f e f2 e2 => rfl,
    fun w e e2 => rfl, ?_, ?_, ?_, ?_, ?_⟩
  · intro w w1 k hsp
    unfold worldSpawn at hsp
    rw [Option.map_eq_some'] at hsp
    obtain ⟨⟨c1, k1⟩, hcu, hw⟩ := hsp
    simp only at hw
    rw [Prod.mk.injEq] at hw
    obtain ⟨h1, h2⟩ := hw
    subst h2
    subst h1
    unfold createUninitEntity at hcu
    rw [Option.map_eq_some'] at hcu
    obtain ⟨⟨idx, k2⟩, hins, hck⟩ := hcu
    simp only at hck
    rw [Prod.mk.injEq] at hck
    obtain ⟨hck1, hck2⟩ := hck
    subst hck2
    subst hck1
    exact ⟨rfl, rfl⟩
  · intro infos w info bytes e cur w2 hq hget hent hf
    obtain ⟨core, q, g⟩ := w
    simp only at hq hget hent
    subst hq
    have hf2 : flushW infos ⟨core, [CommandM.insertC info bytes e], g⟩ = some w2 := hf
    obtain ⟨core2, hap, hw2⟩ := flushW_single hf2
    subst hw2
    have hap2 : (insertBytes infos core info bytes e).map Prod.fst = some core2 := hap
    rw [Option.map_eq_some'] at hap2
    obtain ⟨⟨st2, loc⟩, hib, hc2⟩ := hap2
    simp only at hc2
    subst hc2
    obtain ⟨hg2, hhas⟩ := insertBytes_observable hget hent hib
    unfold viewHas
    simp only
    rw [hg2]
    simp only
    exact hhas
  · intro infos w f e cur w2 hq hget hent hdir2 hsx hedge hfo hsort hf
    obtain ⟨core, q, g⟩ := w
    simp only at hq hget hent hdir2 hsx hedge hfo hsort
    subst hq
    have hf2 : flushW infos ⟨core, [CommandM.removeC f e], g⟩ = some w2 := hf
    obtain ⟨core2, hap, hw2⟩ := flushW_single hf2
    subst hw2
    have hap2 : (removeField infos core f e).map Prod.fst = some core2 := hap
    rw [Option.map_eq_some'] at hap2
    obtain ⟨⟨st2, loc⟩, hrf, hc2⟩ := hap2
    simp only at hc2
    subst hc2
    obtain ⟨hg2, hhas⟩ := removeField_not_has hget hent hdir2 hsx hedge hfo hsort hrf
    unfold viewHas
    simp only
    rw [hg2]
    simp only
    exact hhas
  · intro infos w e w2 hq hf
    obtain ⟨core, q, g⟩ := w
    simp only at hq
    subst hq
    have hf2 : flushW infos ⟨core, [CommandM.despawnC e], g⟩ = some w2 := hf
    obtain ⟨core2, hap, hw2⟩ := flushW_single hf2
    subst hw2
    have hd : despawnE core e = some core2 := hap
    unfold getEntitySome
    simp only
    rw [despawnE_get hd]
    rfl
  · intro infos w w1 k w2 hq hsp hf
    obtain ⟨core, q, g⟩ := w
    simp only at hq hsp
    subst hq
    unfold worldSpawn at hsp
    rw [Option.map_eq_some'] at hsp
    obtain ⟨⟨c1, k1⟩, hcu, hw⟩ := hsp
    simp only at hw
    rw [Prod.mk.injEq] at hw
    obtain ⟨h1, h2⟩ := hw
    subst h2
    subst h1
    unfold createUninitEntity at hcu
    rw [Option.map_eq_some'] at hcu
    obtain ⟨⟨idx, k2⟩, hins, hck⟩ := hcu
    simp only at hck
    rw [Prod.mk.injEq] at hck
    obtain ⟨hck1, hck2⟩ := hck
    subst hck2
    subst hck1
    have hf2 : flushW infos
        ⟨{ core with entityIndex := idx }, [CommandM.spawnC k2], g⟩ = some w2 := hf
    obtain ⟨core2, hap, hw2⟩ := flushW_single hf2
    subst hw2
    have hap2 : (initEntityLocation { core with entityIndex := idx } k2).map Prod.fst =
        some core2 := hap
    rw [Option.map_eq_some'] at hap2
    obtain ⟨⟨c3, loc⟩, hinit, hc3⟩ := hap2
    simp only at hc3
    subst hc3
    have hgk : ({ core with entityIndex := idx } : CoreM).entityIndex.get k2 =
        some EntityLoc.uninit := SlotMap_insert_get hins
    obtain ⟨hloc, hgk2, hents⟩ := initEntity_fresh hgk hinit
    refine ⟨hents, ?_, ?_⟩
    · rw [hgk2, hloc]
    · unfold getEntitySome
      simp only
      rw [hgk2]
      rfl

/-- Witness for C6: concrete flushed worlds — inserting component 5 becomes visible
to has, removing component 5 stops being visible, a despawned entity vanishes from
get_entity, and a spawned entity lands at the end of the empty archetype. -/
theorem c6_witness :
    (flushW infosF (viewInsert wOne info5 [9] e0)).map (fun w2 => viewHas w2 5 e0) =
      some true ∧
    (flushW infosF (viewRemove wHolds5 5 e0)).map (fun w2 => viewHas w2 5 e0) =
      some false ∧
    (flushW infosF (viewDespawn wHolds5 e0)).map (fun w2 => getEntitySome w2 e0) =
      some false ∧
    ((worldSpawn wOne).bind fun p => (flushW infosF p.1).map fun w2 =>
      (decide ((w2.core.archetypes.getD 0 dummyArch).entities =
        (wOne.core.archetypes.getD 0 dummyArch).entities ++ [p.2]),
        getEntitySome w2 p.2)) = some (true, true) := by
  obtain ⟨A1, A2, A3, A4, A5, A6, A7, A8, A9, A10, A11⟩ :=
    c6_mutations_deferred_until_flush
  refine ⟨?_, ?_, ?_, ?_⟩
  · cases hf : flushW infosF (viewInsert wOne info5 [9] e0) with
    | none => exact absurd hf (by decide)
    | some w2 =>
        rw [Option.map_some']
        exact congrArg some
          (A8 infosF wOne info5 [9] e0 ⟨0, 0⟩ w2 rfl (by decide) (by decide) hf)
  · cases hf : flushW infosF (viewRemove wHolds5 5 e0) with
    | none => exact absurd hf (by decide)
    | some w2 =>
        rw [Option.map_some']
        exact congrArg some
          (A9 infosF wHolds5 5 e0 ⟨1, 0⟩ w2 rfl (by decide) (by decide) (by decide)
            (by decide) (by decide) (by decide) (by decide) hf)
  · cases hf : flushW infosF (viewDespawn wHolds5 e0) with
    | none => exact absurd hf (by decide)
    | some w2 =>
        rw [Option.map_some']
        exact congrArg some (A10 infosF wHolds5 e0 w2 rfl hf)
  · have hsp : worldSpawn wOne =
        some (⟨⟨⟨[⟨1, some ⟨0, 0⟩⟩, ⟨1, some EntityLoc.uninit⟩], []⟩, [], [([], 0)],
          [⟨[], [e0], [], []⟩]⟩, [.spawnC ⟨1, 1⟩], 0⟩, ⟨1, 1⟩) := by decide
    rw [hsp, Option.some_bind]
    cases hf : flushW infosF (⟨⟨⟨[⟨1, some ⟨0, 0⟩⟩, ⟨1, some EntityLoc.uninit⟩], []⟩, [],
        [([], 0)], [⟨[], [e0], [], []⟩]⟩, [.spawnC ⟨1, 1⟩], 0⟩ : WorldM) with
    | none => exact absurd hf (by decide)
    | some w2 =>
        rw [Option.map_some']
        obtain ⟨hents, hgk, hsome⟩ := A11 infosF wOne _ ⟨1, 1⟩ w2 rfl hsp hf
        have hpair : (decide ((w2.core.archetypes.getD 0 dummyArch).entities =
            (wOne.core.archetypes.getD 0 dummyArch).entities ++ [(⟨1, 1⟩ : Key)]),
            getEntitySome w2 ⟨1, 1⟩) = (true, true) := by
          rw [hsome, decide_eq_true hents]
        exact congrArg some hpair

end Ssecs
